import Mathlib

/-!
Verification development for the media-manager reconciliation engine.

The Python source is shallowly embedded: strings are processed as their
character lists, the remote filesystem is modelled as the set (list) of
existing paths, and the watcher's persisted snapshot as an association
list from path to recorded file state.  Regular-expression operations of
the source are modelled by the equivalent character-level transformations
(a single-character class substitution is a map, a run-collapsing
substitution is an explicit run-collapsing pass).
-/

namespace MediaManager

/-- Characters rejected by the source regex [<>:"/\|?*\x00-\x1f]
(naming.py, INVALID_CHARS). -/
def invalidChar (c : Char) : Bool :=
  c == '<' || c == '>' || c == ':' || c == '"' || c == '/' || c == '\\' ||
  c == '|' || c == '?' || c == '*' || decide (c.toNat ≤ 0x1f)

/-- The character set matched by the \s class of Python regular expressions
over str: ASCII whitespace, the file/group/record/unit separators, and the
Unicode whitespace code points. -/
def isPySpace (c : Char) : Bool :=
  c == ' ' || c == '\t' || c == '\n' || c == '\r' || c == '\x0b' || c == '\x0c' ||
  c == '\x1c' || c == '\x1d' || c == '\x1e' || c == '\x1f' ||
  c == '\x85' || c == '\xa0' || c == ' ' ||
  decide (0x2000 ≤ c.toNat ∧ c.toNat ≤ 0x200a) ||
  c == ' ' || c == ' ' || c == ' ' || c == ' ' || c == '　'

/-- Substitution of every invalid character by the replacement string:
INVALID_CHARS.sub(replacement, name) in sanitize_filename. -/
def subInvalid (repl : List Char) : List Char → List Char
  | [] => []
  | c :: cs => if invalidChar c then repl ++ subInvalid repl cs else c :: subInvalid repl cs

/-- Membership in the strip set of name.strip(" .") . -/
def isSpaceDot (c : Char) : Bool :=
  c == ' ' || c == '.'

/-- Python str.strip(" .") : remove leading and trailing spaces and dots. -/
def stripSpaceDot (l : List Char) : List Char :=
  ((l.dropWhile isSpaceDot).reverse.dropWhile isSpaceDot).reverse

/-- Run-collapsing substitution re.sub(p+, r): every maximal run of
characters satisfying p becomes the single character r.  The flag records
whether the previous character was part of a run. -/
def collapseAux (p : Char → Bool) (r : Char) (inRun : Bool) : List Char → List Char
  | [] => []
  | c :: cs =>
    if p c then
      (if inRun then collapseAux p r true cs else r :: collapseAux p r true cs)
    else c :: collapseAux p r false cs

/-- Collapse maximal p-runs to the single character r. -/
def collapseRuns (p : Char → Bool) (r : Char) (l : List Char) : List Char :=
  collapseAux p r false l

/-- sanitize_filename from naming.py with an explicit replacement string:
substitute invalid characters, strip leading/trailing spaces and dots,
collapse whitespace runs to one space, collapse underscore runs to one
underscore. -/
def sanitize_filename_with (name : String) (replacement : String) : String :=
  let l1 := subInvalid replacement.data name.data
  let l2 := stripSpaceDot l1
  let l3 := collapseRuns isPySpace ' ' l2
  let l4 := collapseRuns (fun c => c == '_') '_' l3
  String.mk l4

/-- sanitize_filename with the default replacement "_". -/
def sanitize_filename (name : String) : String :=
  sanitize_filename_with name "_"

/-- TrackMetadata from metadata.py (duration and raw_tags, irrelevant to
naming, are omitted; numeric tags are naturals as extracted by _get_int). -/
structure TrackMetadata where
  title : String := ""
  artist : String := ""
  album_artist : String := ""
  album : String := ""
  track_number : Nat := 0
  total_tracks : Nat := 0
  disc_number : Nat := 1
  total_discs : Nat := 1
  year : Nat := 0
  genre : String := ""
  format : String := ""
  bitrate : Nat := 0
  sample_rate : Nat := 0
  bit_depth : Nat := 0
  file_path : String := ""
deriving DecidableEq, Repr

/-- is_compilation property: album_artist, lower-cased, is one of the
various-artists aliases. -/
def TrackMetadata.is_compilation (m : TrackMetadata) : Bool :=
  let aa := String.mk (m.album_artist.data.map Char.toLower)
  aa == "various artists" || aa == "various" || aa == "va" ||
  aa == "compilation" || aa == "soundtrack" || aa == "ost"

/-- format_tag property from metadata.py: format-specific quality tag. -/
def TrackMetadata.format_tag (m : TrackMetadata) : String :=
  if m.format = "FLAC" then
    if m.bit_depth ≠ 0 ∧ m.sample_rate ≠ 0 then
      "FLAC " ++ toString m.bit_depth ++ "-" ++ toString (m.sample_rate / 1000)
    else "FLAC"
  else if m.format = "MP3" then
    if m.bitrate ≠ 0 then "MP3 " ++ toString m.bitrate else "MP3"
  else if m.format = "AAC" ∨ m.format = "M4A" then
    if m.bitrate ≠ 0 then "AAC " ++ toString m.bitrate else "AAC"
  else if m.format = "OGG" ∨ m.format = "Opus" then
    if m.bitrate ≠ 0 then m.format ++ " " ++ toString m.bitrate else m.format
  else if m.format = "" then "Unknown" else m.format

/-- generate_folder_name from naming.py: "Album Artist/Album (Year) [Format]";
compilations use the fixed Compilations bucket (settings.compilations_folder). -/
def generate_folder_name (meta : TrackMetadata) : String :=
  let artist_folder :=
    if meta.is_compilation then "Compilations"
    else sanitize_filename
      (if meta.album_artist ≠ "" then meta.album_artist
       else if meta.artist ≠ "" then meta.artist
       else "Unknown Artist")
  let album := sanitize_filename (if meta.album ≠ "" then meta.album else "Unknown Album")
  let album_with_year :=
    if meta.year ≠ 0 then album ++ " (" ++ toString meta.year ++ ")" else album
  let format_tag := meta.format_tag
  let album_folder :=
    if format_tag ≠ "" then album_with_year ++ " [" ++ format_tag ++ "]" else album_with_year
  artist_folder ++ "/" ++ album_folder

/-- The final path component after stripping trailing separators
(PurePath(file_path).name; the source paths use backslash-free tails, the
special components "." and ".." are not modelled). -/
def pathName (p : String) : String :=
  String.mk (((p.data.reverse.dropWhile (fun c => c == '/')).takeWhile (fun c => !(c == '/'))).reverse)

/-- PurePath suffix rule on the final component: the part from the last dot,
provided that dot is neither the first nor the last character. -/
def suffixOfName (name : List Char) : List Char :=
  let rev := name.reverse
  let k := rev.findIdx (fun c => c == '.')
  if 1 ≤ k ∧ k + 2 ≤ rev.length then (rev.take (k + 1)).reverse else []

/-- PurePath(p).suffix. -/
def pathSuffix (p : String) : String :=
  String.mk (suffixOfName (pathName p).data)

/-- Zero-padding of a natural to two digits: Python format spec 02d. -/
def pad2 (n : Nat) : String :=
  if n < 10 then "0" ++ toString n else toString n

/-- generate_track_filename from naming.py: "DD - Title.ext" or, for
multi-disc albums, "D-DD - Title.ext". -/
def generate_track_filename (meta : TrackMetadata) : String :=
  let e := if meta.file_path ≠ "" then String.mk ((pathSuffix meta.file_path).data.map Char.toLower)
           else ".flac"
  let title := sanitize_filename (if meta.title ≠ "" then meta.title else "Unknown Track")
  let track_num := if meta.track_number = 0 then 1 else meta.track_number
  if meta.total_discs > 1 ∨ meta.disc_number > 1 then
    let disc := if meta.disc_number = 0 then 1 else meta.disc_number
    toString disc ++ "-" ++ pad2 track_num ++ " - " ++ title ++ e
  else
    pad2 track_num ++ " - " ++ title ++ e

/-- Python str.split on a single separator character: "".split gives [""],
separators delimit possibly empty fields. -/
def splitChar (sep : Char) : List Char → List (List Char)
  | [] => [[]]
  | c :: cs =>
    match splitChar sep cs with
    | [] => [[]]
    | h :: t => if c == sep then [] :: h :: t else (c :: h) :: t

/-- Join character lists with a single separator character. -/
def joinChar (sep : Char) : List (List Char) → List Char
  | [] => []
  | [x] => x
  | x :: y :: t => x ++ sep :: joinChar sep (y :: t)

/-- album_path.replace of backslash by slash. -/
def normalizeSeps (s : String) : String :=
  String.mk (s.data.map (fun c => if c == '\\' then '/' else c))

/-- Python str.rstrip of slashes. -/
def rstripSlash (s : String) : String :=
  String.mk ((s.data.reverse.dropWhile (fun c => c == '/')).reverse)

/-- str.split on slash, at the String level. -/
def splitSlash (s : String) : List String :=
  (splitChar '/' s.data).map String.mk

/-- Python "/".join(parts) followed by .replace of slash by backslash. -/
def joinSlashBack (parts : List String) : String :=
  String.mk ((joinChar '/' (parts.map String.data)).map (fun c => if c == '/' then '\\' else c))

/-- The canonical album segment chosen by calculate_renames:
ideal_parts[1] when the canonical folder name splits into more than one
slash-component, else ideal_parts[0]. -/
def idealAlbumSegment (meta : TrackMetadata) : String :=
  let ideal_parts := splitSlash (generate_folder_name meta)
  if h : 1 < ideal_parts.length then ideal_parts.get ⟨1, h⟩ else ideal_parts.headD ""

/-- RenameAction from naming.py. -/
structure RenameAction where
  src : String
  dst : String
  action_type : String
  description : String
deriving DecidableEq, Repr

/-- FileInfo from smb_client.py (the modification time, unused by the
planner, is omitted). -/
structure FileInfo where
  path : String
  name : String
  is_dir : Bool := false
  size : Nat := 0
deriving DecidableEq, Repr

/-- Association-list view of the per-track metadata dict. -/
def lookupMeta : List (String × TrackMetadata) → String → Option TrackMetadata
  | [], _ => none
  | (k, v) :: rest, p => if k = p then some v else lookupMeta rest p

/-- calculate_renames from naming.py: the album-folder action if the album
folder basename differs from the canonical one, followed by per-track file
actions when per-track metadata is available. -/
def calculate_renames (album_path : String) (tracks : List FileInfo)
    (album_meta : TrackMetadata)
    (track_metadata : Option (List (String × TrackMetadata))) : List RenameAction :=
  let path_parts := splitSlash (rstripSlash (normalizeSeps album_path))
  if path_parts.length < 2 then []
  else
    let current_album_folder := path_parts.getLastD ""
    let parent_path := joinSlashBack path_parts.dropLast
    let ideal_album := idealAlbumSegment album_meta
    let album_renamed := current_album_folder ≠ ideal_album
    let new_album_path := if album_renamed then parent_path ++ "\\" ++ ideal_album else album_path
    let folder_acts :=
      if album_renamed then
        [{ src := album_path, dst := parent_path ++ "\\" ++ ideal_album,
           action_type := "album_folder",
           description := "Rename album: " ++ current_album_folder ++ " → " ++ ideal_album }]
      else ([] : List RenameAction)
    let file_acts :=
      match track_metadata with
      | none => []
      | some tm =>
        tracks.filterMap (fun track_info =>
          match lookupMeta tm track_info.path with
          | none => none
          | some track_meta =>
            let ideal_filename := generate_track_filename track_meta
            if track_info.name = ideal_filename then none
            else
              let src := if album_renamed then new_album_path ++ "\\" ++ track_info.name
                         else track_info.path
              let dst := new_album_path ++ "\\" ++ ideal_filename
              if src = dst then none
              else some { src := src, dst := dst, action_type := "file",
                          description := "Rename: " ++ track_info.name ++ " → " ++ ideal_filename })
    folder_acts ++ file_acts

/-- The remote filesystem, abstracted to the list of existing paths; it
backs the existence checks of the executor.  A rename moves the single
named path (subtree contents are not modelled; no claim depends on them). -/
abbrev FS := List String

/-- client.exists. -/
def fsExists (fs : FS) (p : String) : Bool := fs.contains p

/-- client.rename: the source path stops existing, the destination starts. -/
def fsRename (fs : FS) (src dst : String) : FS :=
  dst :: fs.filter (fun q => !(q == src))

/-- State threaded through execute_renames: the remote filesystem, the
undo-log buffer of recorded renames (src, dst), and the two counters. -/
structure ExecState where
  fs : FS
  log : List (String × String)
  success : Nat
  errors : Nat
deriving DecidableEq, Repr

/-- Membership in the folder partition of execute_renames. -/
def isFolderKind (a : RenameAction) : Bool :=
  a.action_type == "album_folder" || a.action_type == "artist_folder"

/-- Membership in the file partition of execute_renames. -/
def isFileKind (a : RenameAction) : Bool :=
  a.action_type == "file"

/-- The order execute_renames applies actions in: folder actions first,
then file actions, each sub-list in input order. -/
def executionOrder (actions : List RenameAction) : List RenameAction :=
  actions.filter isFolderKind ++ actions.filter isFileKind

/-- One iteration of the execute_renames loop.  In dry-run mode only the
success counter moves; in live mode a missing source or an existing
destination counts an error and changes nothing else, otherwise the rename
is performed and recorded. -/
def execStep (dry_run : Bool) (st : ExecState) (action : RenameAction) : ExecState :=
  if dry_run then { st with success := st.success + 1 }
  else if !(fsExists st.fs action.src) then { st with errors := st.errors + 1 }
  else if fsExists st.fs action.dst then { st with errors := st.errors + 1 }
  else { fs := fsRename st.fs action.src action.dst,
         log := st.log ++ [(action.src, action.dst)],
         success := st.success + 1, errors := st.errors }

/-- Fold of execStep over an action list. -/
def applyActions (dry_run : Bool) (st : ExecState) (l : List RenameAction) : ExecState :=
  l.foldl (execStep dry_run) st

/-- execute_renames from naming.py: partition, order, then apply. -/
def execute_renames (dry_run : Bool) (st : ExecState) (actions : List RenameAction) : ExecState :=
  applyActions dry_run st (executionOrder actions)

/-- UndoLogEntry: one structured journal record (smb_client.py log_rename,
log_write, log_delete).  A journal line is modelled as its parsed record;
the JSON rendering, a bijection on records, is not modelled. -/
inductive UndoLogEntry where
  | rename (timestamp : String) (src : String) (dst : String)
  | write (timestamp : String) (path : String) (had_previous : Bool) (previous_size : Nat)
  | delete (timestamp : String) (path : String)
deriving DecidableEq, Repr

/-- UndoLog from smb_client.py: the persistent journal (one record per
line, in file order) and the in-memory buffer _entries. -/
structure UndoLog where
  journal : List UndoLogEntry
  entries : List UndoLogEntry
deriving DecidableEq, Repr

/-- log_rename: buffer a rename record. -/
def UndoLog.log_rename (u : UndoLog) (ts src dst : String) : UndoLog :=
  { u with entries := u.entries ++ [UndoLogEntry.rename ts src dst] }

/-- log_write: buffer a write record. -/
def UndoLog.log_write (u : UndoLog) (ts path : String) (had_previous : Bool)
    (previous_size : Nat) : UndoLog :=
  { u with entries := u.entries ++ [UndoLogEntry.write ts path had_previous previous_size] }

/-- log_delete: buffer a delete record. -/
def UndoLog.log_delete (u : UndoLog) (ts path : String) : UndoLog :=
  { u with entries := u.entries ++ [UndoLogEntry.delete ts path] }

/-- save: append each buffered entry as one journal line, clear the buffer. -/
def UndoLog.save (u : UndoLog) : UndoLog :=
  { journal := u.journal ++ u.entries, entries := [] }

/-- read_all: parse the whole journal back, in order. -/
def UndoLog.read_all (u : UndoLog) : List UndoLogEntry :=
  u.journal

/-- Repeated reconciliation cycles: each buffers a batch of records and
calls save. -/
def saveCycles (u : UndoLog) (batches : List (List UndoLogEntry)) : UndoLog :=
  batches.foldl (fun st b => UndoLog.save { st with entries := st.entries ++ b }) u

/-- The (size, mtime) pair returned by a successful stat call. -/
structure FileStat where
  size : Nat
  modified : Int
deriving DecidableEq, Repr

/-- One audio file met during the walk of _scan_for_changes: its full path
and the result of the stat call (none when stat raised OSError).  The walk
itself and the audio-extension filter are external I/O; an observation list
holds exactly the audio files the scan loop body runs on, in walk order. -/
structure ObsEntry where
  path : String
  stat : Option FileStat
deriving DecidableEq, Repr

/-- FileState from watcher.py. -/
structure FileState where
  path : String
  size : Nat
  modified : Int
deriving DecidableEq, Repr

/-- known_files: insertion-ordered mapping from path to FileState. -/
abbrev KnownMap := List (String × FileState)

/-- Dictionary lookup. -/
def lookupFS : KnownMap → String → Option FileState
  | [], _ => none
  | (k, v) :: rest, p => if k = p then some v else lookupFS rest p

/-- Dictionary assignment: update in place when the key exists, else append. -/
def insertFS : KnownMap → String → FileState → KnownMap
  | [], k, v => [(k, v)]
  | (k1, v1) :: rest, k, v =>
    if k1 = k then (k, v) :: rest else (k1, v1) :: insertFS rest k v

/-- The FileState recorded for an observed entry with a successful stat. -/
def obsFileState (e : ObsEntry) (s : FileStat) : FileState :=
  { path := e.path, size := s.size, modified := s.modified }

/-- The per-file loop of _scan_for_changes: classify each observed file as
new or modified and update the known-file map; files whose stat failed are
skipped. -/
def scanLoop : List ObsEntry → KnownMap → List String × List String × KnownMap
  | [], known => ([], [], known)
  | e :: rest, known =>
    match e.stat with
    | none => scanLoop rest known
    | some s =>
      match lookupFS known e.path with
      | none =>
        let r := scanLoop rest (insertFS known e.path (obsFileState e s))
        (e.path :: r.1, r.2.1, r.2.2)
      | some old =>
        if s.size ≠ old.size ∨ s.modified ≠ old.modified then
          let r := scanLoop rest (insertFS known e.path (obsFileState e s))
          (r.1, e.path :: r.2.1, r.2.2)
        else scanLoop rest known

/-- Result of one _scan_for_changes call together with the updated state. -/
structure ScanResult where
  newFiles : List String
  modifiedFiles : List String
  deletedFiles : List String
  state : KnownMap
deriving DecidableEq, Repr

/-- _scan_for_changes from watcher.py: run the per-file loop, then delete
every known path absent from the observed path set (note that a path whose
stat failed was still added to current_files before the stat). -/
def scan_for_changes (known : KnownMap) (obs : List ObsEntry) : ScanResult :=
  let r := scanLoop obs known
  let current := obs.map ObsEntry.path
  { newFiles := r.1, modifiedFiles := r.2.1,
    deletedFiles := (r.2.2.map Prod.fst).filter (fun p => !(current.contains p)),
    state := r.2.2.filter (fun kv => current.contains kv.1) }

/-- path.rsplit on the last backslash: the parent directory, when the path
has one. -/
def rsplitParent (p : String) : Option String :=
  if '\\' ∈ p.data then
    some (String.mk (((p.data.reverse.dropWhile (fun c => !(c == '\\'))).drop 1).reverse))
  else none

/-- _get_albums_from_files: deduplicated parent directories of the given
paths (the source collects them in a set; first-seen order is used here). -/
def get_albums_from_files (paths : List String) : List String :=
  paths.foldl (fun acc p =>
    match rsplitParent p with
    | some d => if d ∈ acc then acc else acc ++ [d]
    | none => acc) []

/-- The in-memory WatchState of the watcher. -/
structure WatchMem where
  known_files : KnownMap
  last_scan : Int
deriving DecidableEq, Repr

/-- The persisted WatchState snapshot on durable storage. -/
structure Durable where
  last_scan : Int
  known_files : KnownMap
deriving DecidableEq, Repr

/-- Counters returned by run_once. -/
structure RunResult where
  new_files : Nat
  modified_files : Nat
  deleted_files : Nat
  albums_affected : Nat
deriving DecidableEq, Repr

/-- run_once from watcher.py.  cbRaises tells whether the reconciliation
callback raises on a given affected-album list; a raise propagates out of
run_once (error case) after the scan has already mutated the in-memory
state but before last_scan is updated and the state is saved. -/
def run_once (cbRaises : List String → Bool) (now : Int) (mem : WatchMem) (dur : Durable)
    (obs : List ObsEntry) : Except (WatchMem × Durable) (RunResult × WatchMem × Durable) :=
  let r := scan_for_changes mem.known_files obs
  let files_to_process := r.newFiles ++ r.modifiedFiles
  let albums := if files_to_process.isEmpty then [] else get_albums_from_files files_to_process
  if !files_to_process.isEmpty && cbRaises albums then
    Except.error ({ mem with known_files := r.state }, dur)
  else
    Except.ok
      ({ new_files := r.newFiles.length, modified_files := r.modifiedFiles.length,
         deleted_files := r.deletedFiles.length, albums_affected := albums.length },
       { known_files := r.state, last_scan := now },
       { last_scan := now, known_files := r.state })

/-- The watch loop of run: each cycle calls run_once inside try/except, so
a raising cycle is logged and the loop moves on to the next cycle with the
in-memory state the failed cycle left behind. -/
def run_watch_loop (cbRaises : List String → Bool) (cycles : List (Int × List ObsEntry))
    (mem : WatchMem) (dur : Durable) : WatchMem × Durable :=
  match cycles with
  | [] => (mem, dur)
  | (now, obs) :: rest =>
    match run_once cbRaises now mem dur obs with
    | Except.ok (_, mem2, dur2) => run_watch_loop cbRaises rest mem2 dur2
    | Except.error (mem2, dur2) => run_watch_loop cbRaises rest mem2 dur2

/-! ### Lemmas about the undo log -/

theorem saveCycles_spec (batches : List (List UndoLogEntry)) (j : List UndoLogEntry) :
    saveCycles ⟨j, []⟩ batches = ⟨j ++ batches.flatten, []⟩ := by
  induction batches generalizing j with
  | nil => simp [saveCycles]
  | cons b bs ih =>
    have h1 : saveCycles ⟨j, []⟩ (b :: bs) = saveCycles ⟨j ++ ([] ++ b), []⟩ bs := rfl
    rw [h1, List.nil_append, ih, List.flatten_cons, List.append_assoc]

/-- C7: save appends each buffered entry as one journal line, in buffer
order, never rewriting or truncating an existing line (the old journal is
an unchanged initial segment), and clears the buffer; read_all then
returns the previously journaled entries followed by the newly saved
ones, and repeated buffer-and-save cycles accumulate the full ordered
history. -/
theorem undoLog_save_appends_and_accumulates (u : UndoLog) :
    (u.save).journal = u.journal ++ u.entries ∧
    (u.save).journal.take u.journal.length = u.journal ∧
    (u.save).entries = [] ∧
    (u.save).read_all = u.read_all ++ u.entries ∧
    ∀ batches : List (List UndoLogEntry),
      (saveCycles u.save batches).read_all = u.read_all ++ u.entries ++ batches.flatten := by
  refine ⟨rfl, ?_, rfl, rfl, ?_⟩
  · simp [UndoLog.save]
  · intro batches
    have : u.save = ⟨u.journal ++ u.entries, []⟩ := rfl
    rw [this, saveCycles_spec]
    rfl

/-! ### Lemmas about the executor -/

theorem applyActions_dry (l : List RenameAction) (st : ExecState) :
    applyActions true st l = { st with success := st.success + l.length } := by
  induction l generalizing st with
  | nil => simp [applyActions]
  | cons a t ih =>
    show applyActions true (execStep true st a) t = _
    rw [ih]
    simp [execStep, Nat.add_comm, Nat.add_assoc, Nat.add_left_comm]

/-- C4 counterexample: over the empty remote filesystem, a single file
action is counted a success by a dry run but an error by a live run, so a
dry run does not return the pair a live run over the same state returns. -/
theorem dry_live_accounting_differs :
    (execute_renames true { fs := [], log := [], success := 0, errors := 0 }
      [{ src := "a", dst := "b", action_type := "file", description := "d" }]).success = 1 ∧
    (execute_renames true { fs := [], log := [], success := 0, errors := 0 }
      [{ src := "a", dst := "b", action_type := "file", description := "d" }]).errors = 0 ∧
    (execute_renames false { fs := [], log := [], success := 0, errors := 0 }
      [{ src := "a", dst := "b", action_type := "file", description := "d" }]).success = 0 ∧
    (execute_renames false { fs := [], log := [], success := 0, errors := 0 }
      [{ src := "a", dst := "b", action_type := "file", description := "d" }]).errors = 1 := by
  decide

/-- C4 amended: a dry run performs no filesystem mutation and appends no
undo-log entry, and counts every executed (folder- or file-kind) action as
a success: it returns the input state with only the success counter
advanced, by the number of executed actions.  Its accounting agrees with a
live run only when the live run reports no errors. -/
theorem execute_renames_dry_run (st : ExecState) (actions : List RenameAction) :
    execute_renames true st actions =
      { st with success := st.success + (executionOrder actions).length } := by
  unfold execute_renames
  exact applyActions_dry _ _

/-- C1: in live mode, an action whose destination already exists — or whose
source does not exist — performs no rename and appends no undo-log entry:
the error counter moves by one, everything else (filesystem, undo log,
success counter) is unchanged, and execution continues with the remaining
actions. -/
theorem execute_renames_live_skips (st : ExecState) (a : RenameAction)
    (rest : List RenameAction)
    (h : fsExists st.fs a.dst = true ∨ fsExists st.fs a.src = false) :
    execStep false st a = { st with errors := st.errors + 1 } ∧
    (execStep false st a).fs = st.fs ∧
    (execStep false st a).log = st.log ∧
    (execStep false st a).success = st.success ∧
    applyActions false st (a :: rest) =
      applyActions false { st with errors := st.errors + 1 } rest := by
  have hstep : execStep false st a = { st with errors := st.errors + 1 } := by
    unfold execStep
    rcases h with h | h
    · by_cases hs : fsExists st.fs a.src
      · simp [hs, h]
      · simp [hs]
    · simp [h]
  refine ⟨hstep, by rw [hstep], by rw [hstep], by rw [hstep], ?_⟩
  show applyActions false (execStep false st a) rest = _
  rw [hstep]

/-- Witness for C1 at a concrete input: the destination exists, so the
action is skipped with an error. -/
theorem execute_renames_live_skips_witness :
    execStep false { fs := ["s", "d"], log := [], success := 0, errors := 0 }
        { src := "s", dst := "d", action_type := "file", description := "x" } =
      { fs := ["s", "d"], log := [], success := 0, errors := 0 + 1 } ∧
    (execStep false { fs := ["s", "d"], log := [], success := 0, errors := 0 }
        { src := "s", dst := "d", action_type := "file", description := "x" }).fs = ["s", "d"] ∧
    (execStep false { fs := ["s", "d"], log := [], success := 0, errors := 0 }
        { src := "s", dst := "d", action_type := "file", description := "x" }).log = [] ∧
    (execStep false { fs := ["s", "d"], log := [], success := 0, errors := 0 }
        { src := "s", dst := "d", action_type := "file", description := "x" }).success = 0 ∧
    applyActions false { fs := ["s", "d"], log := [], success := 0, errors := 0 }
        [{ src := "s", dst := "d", action_type := "file", description := "x" }] =
      applyActions false { fs := ["s", "d"], log := [], success := 0, errors := 0 + 1 } [] :=
  execute_renames_live_skips
    { fs := ["s", "d"], log := [], success := 0, errors := 0 }
    { src := "s", dst := "d", action_type := "file", description := "x" }
    [] (Or.inl (by decide))

theorem folderKind_not_fileKind (a : RenameAction) (h : isFolderKind a = true) :
    isFileKind a = false := by
  unfold isFolderKind at h
  unfold isFileKind
  rcases Bool.or_eq_true_iff.mp h with h1 | h1 <;>
    rw [beq_iff_eq] at h1 <;> simp [h1]

theorem fileKind_not_folderKind (a : RenameAction) (h : isFileKind a = true) :
    isFolderKind a = false := by
  unfold isFileKind at h
  unfold isFolderKind
  rw [beq_iff_eq] at h
  simp [h]

/-- C3: the executor applies every folder-kind action before any file-kind
action, and within each of the two partitions the original relative order
is preserved (the folder and file sub-sequences of the executed order are
exactly the corresponding filters of the input list), whatever the
interleaving of kinds in the input. -/
theorem executionOrder_folders_first (actions : List RenameAction) :
    (∀ dry st, execute_renames dry st actions = applyActions dry st (executionOrder actions)) ∧
    (executionOrder actions).filter isFolderKind = actions.filter isFolderKind ∧
    (executionOrder actions).filter isFileKind = actions.filter isFileKind ∧
    ∀ i j (hi : i < (executionOrder actions).length)
        (hj : j < (executionOrder actions).length),
      isFileKind ((executionOrder actions).get ⟨i, hi⟩) = true →
      isFolderKind ((executionOrder actions).get ⟨j, hj⟩) = true → j < i := by
  refine ⟨fun _ _ => rfl, ?_, ?_, ?_⟩
  · unfold executionOrder
    rw [List.filter_append]
    have h1 : (actions.filter isFolderKind).filter isFolderKind = actions.filter isFolderKind :=
      List.filter_eq_self.mpr (fun a ha => (List.mem_filter.mp ha).2)
    have h2 : (actions.filter isFileKind).filter isFolderKind = [] :=
      List.filter_eq_nil_iff.mpr
        (fun a ha => by
          simp [fileKind_not_folderKind a (List.mem_filter.mp ha).2])
    rw [h1, h2, List.append_nil]
  · unfold executionOrder
    rw [List.filter_append]
    have h1 : (actions.filter isFolderKind).filter isFileKind = [] :=
      List.filter_eq_nil_iff.mpr
        (fun a ha => by
          simp [folderKind_not_fileKind a (List.mem_filter.mp ha).2])
    have h2 : (actions.filter isFileKind).filter isFileKind = actions.filter isFileKind :=
      List.filter_eq_self.mpr (fun a ha => (List.mem_filter.mp ha).2)
    rw [h1, h2, List.nil_append]
  · intro i j hi hj hfile hfolder
    have hlen : (executionOrder actions).length =
        (actions.filter isFolderKind).length + (actions.filter isFileKind).length :=
      List.length_append _ _
    have hi2 : ¬ i < (actions.filter isFolderKind).length := by
      intro hlt
      have hget : (executionOrder actions).get ⟨i, hi⟩ =
          (actions.filter isFolderKind).get ⟨i, hlt⟩ := by
        simp only [executionOrder, List.get_eq_getElem]
        exact List.getElem_append_left hlt
      have hmem : (actions.filter isFolderKind).get ⟨i, hlt⟩ ∈ actions.filter isFolderKind :=
        List.get_mem _ _ _
      have : isFolderKind ((executionOrder actions).get ⟨i, hi⟩) = true := by
        rw [hget]
        exact (List.mem_filter.mp hmem).2
      rw [folderKind_not_fileKind _ this] at hfile
      exact Bool.false_ne_true hfile
    have hj2 : j < (actions.filter isFolderKind).length := by
      by_contra hge
      have hj3 : j - (actions.filter isFolderKind).length <
          (actions.filter isFileKind).length := by omega
      have hget : (executionOrder actions).get ⟨j, hj⟩ =
          (actions.filter isFileKind).get
            ⟨j - (actions.filter isFolderKind).length, hj3⟩ := by
        simp [executionOrder, List.get_eq_getElem]
        rw [List.getElem_append_right (by omega)]
      have hmem : (actions.filter isFileKind).get
          ⟨j - (actions.filter isFolderKind).length, hj3⟩ ∈ actions.filter isFileKind :=
        List.get_mem _ _ _
      have : isFileKind ((executionOrder actions).get ⟨j, hj⟩) = true := by
        rw [hget]
        exact (List.mem_filter.mp hmem).2
      rw [fileKind_not_folderKind _ this] at hfolder
      exact Bool.false_ne_true hfolder
    omega

/-- A concrete mixed action list: a file action listed before a folder
action. -/
def c3acts : List RenameAction :=
  [{ src := "f1", dst := "f2", action_type := "file", description := "t" },
   { src := "a1", dst := "a2", action_type := "album_folder", description := "u" }]

/-- Witness for C3 at the concrete mixed input: the folder sub-sequence is
preserved and the file action, listed first, runs after the folder action
(position 1 versus position 0). -/
theorem executionOrder_folders_first_witness :
    (executionOrder c3acts).filter isFolderKind = c3acts.filter isFolderKind ∧ (0 : Nat) < 1 :=
  ⟨(executionOrder_folders_first c3acts).2.1,
   (executionOrder_folders_first c3acts).2.2.2 1 0 (by decide) (by decide)
     (by decide) (by decide)⟩

/-! ### Watch-cycle persist and loop survival -/

/-- C5 counterexample: a cycle whose reconciliation callback raises does
not complete the Persist step.  With one new file observed and a raising
callback, run_once propagates the failure; last_scan keeps its old value 0
instead of the current time 5, and the durable snapshot is left untouched
(in particular the cycle's state is not written). -/
theorem run_once_raise_skips_persist :
    run_once (fun _ => true) 5 ⟨[], 0⟩ ⟨0, []⟩ [⟨"A\\f.flac", some ⟨1, 1⟩⟩] =
      Except.error (⟨[("A\\f.flac", ⟨"A\\f.flac", 1, 1⟩)], 0⟩, ⟨0, []⟩) ∧
    (⟨0, []⟩ : Durable) ≠ ⟨5, [("A\\f.flac", ⟨"A\\f.flac", 1, 1⟩)]⟩ := by
  exact ⟨rfl, by decide⟩

/-- C5 amended: a cycle that completes without a callback exception does
complete the Persist step — last_scan is set to the current time and the
full state (including that cycle's deletions) is written to durable
storage; a cycle whose callback raises skips Persist (durable storage and
last_scan are unchanged), but the loop catches the failure and the next
cycle still runs, on the in-memory state the failed cycle left behind. -/
theorem run_once_persist_and_loop_survival :
    (∀ cb now mem dur obs r mem2 dur2,
        run_once cb now mem dur obs = Except.ok (r, mem2, dur2) →
        mem2.last_scan = now ∧ dur2 = ⟨now, mem2.known_files⟩) ∧
    (∀ cb now mem dur obs mem2 dur2 rest,
        run_once cb now mem dur obs = Except.error (mem2, dur2) →
        dur2 = dur ∧ mem2.last_scan = mem.last_scan ∧
        run_watch_loop cb ((now, obs) :: rest) mem dur = run_watch_loop cb rest mem2 dur2) := by
  constructor
  · intro cb now mem dur obs r mem2 dur2 h
    unfold run_once at h
    dsimp only at h
    split at h <;> split at h <;>
      first
        | exact Except.noConfusion h
        | · simp only [Except.ok.injEq, Prod.mk.injEq] at h
            obtain ⟨-, h2, h3⟩ := h
            rw [← h2, ← h3]
            exact ⟨rfl, rfl⟩
  · intro cb now mem dur obs mem2 dur2 rest h
    have hloop : run_watch_loop cb ((now, obs) :: rest) mem dur =
        run_watch_loop cb rest mem2 dur2 := by
      show (match run_once cb now mem dur obs with
        | Except.ok (_, m2, d2) => run_watch_loop cb rest m2 d2
        | Except.error (m2, d2) => run_watch_loop cb rest m2 d2) = _
      rw [h]
    unfold run_once at h
    dsimp only at h
    split at h <;> split at h <;>
      first
        | exact Except.noConfusion h
        | · simp only [Except.error.injEq, Prod.mk.injEq] at h
            obtain ⟨h3, h4⟩ := h
            subst h4
            refine ⟨rfl, ?_, hloop⟩
            rw [← h3]

/-- Witness for C5 amended (raising branch) at a concrete cycle: the
durable snapshot is unchanged, last_scan keeps its old value, and the loop
continues with the mutated in-memory state. -/
theorem run_once_persist_and_loop_survival_witness :
    (⟨2, []⟩ : Durable) = ⟨2, []⟩ ∧
    (⟨[("B\\g.flac", ⟨"B\\g.flac", 3, 4⟩)], 2⟩ : WatchMem).last_scan =
      (⟨[], 2⟩ : WatchMem).last_scan ∧
    run_watch_loop (fun _ => true) [(7, [⟨"B\\g.flac", some ⟨3, 4⟩⟩])] ⟨[], 2⟩ ⟨2, []⟩ =
      run_watch_loop (fun _ => true) [] ⟨[("B\\g.flac", ⟨"B\\g.flac", 3, 4⟩)], 2⟩ ⟨2, []⟩ :=
  run_once_persist_and_loop_survival.2 (fun _ => true) 7 ⟨[], 2⟩ ⟨2, []⟩
    [⟨"B\\g.flac", some ⟨3, 4⟩⟩] ⟨[("B\\g.flac", ⟨"B\\g.flac", 3, 4⟩)], 2⟩ ⟨2, []⟩ [] rfl

/-! ### Lemmas about the change detector -/

theorem lookupFS_insertFS (m : KnownMap) (k p : String) (v : FileState) :
    lookupFS (insertFS m k v) p = if k = p then some v else lookupFS m p := by
  induction m with
  | nil => simp [insertFS, lookupFS]
  | cons kv rest ih =>
    obtain ⟨k1, v1⟩ := kv
    by_cases h1 : k1 = k
    · subst h1
      by_cases h2 : k1 = p <;> simp [insertFS, lookupFS, h2]
    · simp only [insertFS, if_neg h1, lookupFS]
      by_cases h2 : k1 = p
      · subst h2
        have hkp : ¬ k = k1 := fun he => h1 he.symm
        simp [lookupFS, if_neg hkp]
      · simp [lookupFS, if_neg h2, ih]

theorem scanLoop_lookup_untouched (obs : List ObsEntry) (known : KnownMap) (p : String)
    (hp : p ∉ obs.map ObsEntry.path) :
    lookupFS (scanLoop obs known).2.2 p = lookupFS known p := by
  induction obs generalizing known with
  | nil => rfl
  | cons e rest ih =>
    simp only [List.map_cons, List.mem_cons, not_or] at hp
    obtain ⟨hpe, hprest⟩ := hp
    have hep : ¬ e.path = p := fun he => hpe he.symm
    unfold scanLoop
    cases hstat : e.stat with
    | none => exact ih _ hprest
    | some s =>
      cases hlook : lookupFS known e.path with
      | none =>
        dsimp only
        rw [ih _ hprest, lookupFS_insertFS, if_neg hep]
      | some old =>
        dsimp only
        by_cases hd : s.size ≠ old.size ∨ s.modified ≠ old.modified
        · rw [if_pos hd]
          dsimp only
          rw [ih _ hprest, lookupFS_insertFS, if_neg hep]
        · rw [if_neg hd]
          exact ih _ hprest

theorem scanLoop_mem_sub (obs : List ObsEntry) (known : KnownMap) (q : String) :
    (q ∈ (scanLoop obs known).1 → q ∈ obs.map ObsEntry.path) ∧
    (q ∈ (scanLoop obs known).2.1 → q ∈ obs.map ObsEntry.path) := by
  induction obs generalizing known with
  | nil =>
    exact ⟨fun h => absurd h (List.not_mem_nil q), fun h => absurd h (List.not_mem_nil q)⟩
  | cons e rest ih =>
    simp only [List.map_cons]
    unfold scanLoop
    cases hstat : e.stat with
    | none =>
      exact ⟨fun h => List.mem_cons_of_mem _ ((ih known).1 h),
             fun h => List.mem_cons_of_mem _ ((ih known).2 h)⟩
    | some s =>
      cases hlook : lookupFS known e.path with
      | none =>
        dsimp only
        constructor
        · intro h
          rcases List.mem_cons.mp h with h1 | h1
          · exact h1 ▸ List.mem_cons_self _ _
          · exact List.mem_cons_of_mem _ ((ih _).1 h1)
        · intro h
          exact List.mem_cons_of_mem _ ((ih _).2 h)
      | some old =>
        dsimp only
        by_cases hd : s.size ≠ old.size ∨ s.modified ≠ old.modified
        · rw [if_pos hd]
          dsimp only
          constructor
          · intro h
            exact List.mem_cons_of_mem _ ((ih _).1 h)
          · intro h
            rcases List.mem_cons.mp h with h1 | h1
            · exact h1 ▸ List.mem_cons_self _ _
            · exact List.mem_cons_of_mem _ ((ih _).2 h1)
        · rw [if_neg hd]
          exact ⟨fun h => List.mem_cons_of_mem _ ((ih known).1 h),
                 fun h => List.mem_cons_of_mem _ ((ih known).2 h)⟩

theorem scanLoop_new_spec (obs : List ObsEntry) (known : KnownMap) (e : ObsEntry) (s : FileStat)
    (hnd : (obs.map ObsEntry.path).Nodup) (he : e ∈ obs) (hs : e.stat = some s)
    (hl : lookupFS known e.path = none) :
    e.path ∈ (scanLoop obs known).1 ∧
    lookupFS (scanLoop obs known).2.2 e.path = some (obsFileState e s) := by
  induction obs generalizing known with
  | nil => cases he
  | cons f rest ih =>
    simp only [List.map_cons, List.nodup_cons] at hnd
    obtain ⟨hnotin, hndr⟩ := hnd
    rcases List.mem_cons.mp he with he1 | he2
    · subst he1
      unfold scanLoop
      rw [hs, hl]
      dsimp only
      refine ⟨List.mem_cons_self _ _, ?_⟩
      rw [scanLoop_lookup_untouched rest _ e.path hnotin, lookupFS_insertFS, if_pos rfl]
    · have hfe : ¬ f.path = e.path := fun hq =>
        hnotin (hq ▸ List.mem_map.mpr ⟨e, he2, rfl⟩)
      unfold scanLoop
      cases hstat : f.stat with
      | none => exact ih _ hndr he2 hl
      | some s1 =>
        cases hlook : lookupFS known f.path with
        | none =>
          dsimp only
          have hl2 : lookupFS (insertFS known f.path (obsFileState f s1)) e.path = none := by
            rw [lookupFS_insertFS, if_neg hfe]
            exact hl
          obtain ⟨ha, hb⟩ := ih _ hndr he2 hl2
          exact ⟨List.mem_cons_of_mem _ ha, hb⟩
        | some old =>
          dsimp only
          by_cases hd : s1.size ≠ old.size ∨ s1.modified ≠ old.modified
          · rw [if_pos hd]
            dsimp only
            have hl2 : lookupFS (insertFS known f.path (obsFileState f s1)) e.path = none := by
              rw [lookupFS_insertFS, if_neg hfe]
              exact hl
            exact ih _ hndr he2 hl2
          · rw [if_neg hd]
            exact ih _ hndr he2 hl

theorem scanLoop_mod_spec (obs : List ObsEntry) (known : KnownMap) (e : ObsEntry) (s : FileStat)
    (old : FileState) (hnd : (obs.map ObsEntry.path).Nodup) (he : e ∈ obs)
    (hs : e.stat = some s) (hl : lookupFS known e.path = some old)
    (hdiff : s.size ≠ old.size ∨ s.modified ≠ old.modified) :
    e.path ∈ (scanLoop obs known).2.1 ∧
    lookupFS (scanLoop obs known).2.2 e.path = some (obsFileState e s) := by
  induction obs generalizing known old with
  | nil => cases he
  | cons f rest ih =>
    simp only [List.map_cons, List.nodup_cons] at hnd
    obtain ⟨hnotin, hndr⟩ := hnd
    rcases List.mem_cons.mp he with he1 | he2
    · subst he1
      unfold scanLoop
      rw [hs, hl]
      dsimp only
      rw [if_pos hdiff]
      dsimp only
      refine ⟨List.mem_cons_self _ _, ?_⟩
      rw [scanLoop_lookup_untouched rest _ e.path hnotin, lookupFS_insertFS, if_pos rfl]
    · have hfe : ¬ f.path = e.path := fun hq =>
        hnotin (hq ▸ List.mem_map.mpr ⟨e, he2, rfl⟩)
      unfold scanLoop
      cases hstat : f.stat with
      | none => exact ih _ _ hndr he2 hl hdiff
      | some s1 =>
        cases hlook : lookupFS known f.path with
        | none =>
          dsimp only
          have hl2 : lookupFS (insertFS known f.path (obsFileState f s1)) e.path = some old := by
            rw [lookupFS_insertFS, if_neg hfe]
            exact hl
          obtain ⟨ha, hb⟩ := ih _ _ hndr he2 hl2 hdiff
          exact ⟨ha, hb⟩
        | some old1 =>
          dsimp only
          by_cases hd : s1.size ≠ old1.size ∨ s1.modified ≠ old1.modified
          · rw [if_pos hd]
            dsimp only
            have hl2 : lookupFS (insertFS known f.path (obsFileState f s1)) e.path = some old := by
              rw [lookupFS_insertFS, if_neg hfe]
              exact hl
            obtain ⟨ha, hb⟩ := ih _ _ hndr he2 hl2 hdiff
            exact ⟨List.mem_cons_of_mem _ ha, hb⟩
          · rw [if_neg hd]
            exact ih _ _ hndr he2 hl hdiff

theorem scanLoop_statfail_spec (obs : List ObsEntry) (known : KnownMap) (e : ObsEntry)
    (hnd : (obs.map ObsEntry.path).Nodup) (he : e ∈ obs) (hs : e.stat = none) :
    e.path ∉ (scanLoop obs known).1 ∧ e.path ∉ (scanLoop obs known).2.1 ∧
    lookupFS (scanLoop obs known).2.2 e.path = lookupFS known e.path := by
  induction obs generalizing known with
  | nil => cases he
  | cons f rest ih =>
    simp only [List.map_cons, List.nodup_cons] at hnd
    obtain ⟨hnotin, hndr⟩ := hnd
    rcases List.mem_cons.mp he with he1 | he2
    · subst he1
      unfold scanLoop
      rw [hs]
      refine ⟨?_, ?_, scanLoop_lookup_untouched rest known e.path hnotin⟩
      · intro hmem
        exact hnotin ((scanLoop_mem_sub rest known e.path).1 hmem)
      · intro hmem
        exact hnotin ((scanLoop_mem_sub rest known e.path).2 hmem)
    · have hfe : ¬ f.path = e.path := fun hq =>
        hnotin (hq ▸ List.mem_map.mpr ⟨e, he2, rfl⟩)
      unfold scanLoop
      cases hstat : f.stat with
      | none => exact ih _ hndr he2
      | some s1 =>
        cases hlook : lookupFS known f.path with
        | none =>
          dsimp only
          obtain ⟨ha, hb, hc⟩ := ih (insertFS known f.path (obsFileState f s1)) hndr he2
          refine ⟨?_, hb, ?_⟩
          · intro hmem
            rcases List.mem_cons.mp hmem with h1 | h1
            · exact hfe h1.symm
            · exact ha h1
          · rw [hc, lookupFS_insertFS, if_neg hfe]
        | some old1 =>
          dsimp only
          by_cases hd : s1.size ≠ old1.size ∨ s1.modified ≠ old1.modified
          · rw [if_pos hd]
            dsimp only
            obtain ⟨ha, hb, hc⟩ := ih (insertFS known f.path (obsFileState f s1)) hndr he2
            refine ⟨ha, ?_, ?_⟩
            · intro hmem
              rcases List.mem_cons.mp hmem with h1 | h1
              · exact hfe h1.symm
              · exact hb h1
            · rw [hc, lookupFS_insertFS, if_neg hfe]
          · rw [if_neg hd]
            exact ih _ hndr he2

theorem scanLoop_id (obs : List ObsEntry) (known : KnownMap)
    (h : ∀ e ∈ obs, ∃ s, e.stat = some s ∧
      lookupFS known e.path = some (obsFileState e s)) :
    scanLoop obs known = ([], [], known) := by
  induction obs with
  | nil => rfl
  | cons e rest ih =>
    obtain ⟨s, hs, hl⟩ := h e (List.mem_cons_self _ _)
    unfold scanLoop
    rw [hs, hl]
    dsimp only
    have hno : ¬ (s.size ≠ (obsFileState e s).size ∨
        s.modified ≠ (obsFileState e s).modified) := by
      simp [obsFileState]
    rw [if_neg hno]
    exact ih (fun f hf => h f (List.mem_cons_of_mem _ hf))

theorem lookupFS_isSome_iff (m : KnownMap) (p : String) :
    (lookupFS m p).isSome = true ↔ p ∈ m.map Prod.fst := by
  induction m with
  | nil => simp [lookupFS]
  | cons kv rest ih =>
    obtain ⟨k, v⟩ := kv
    by_cases h : k = p
    · subst h
      simp [lookupFS]
    · have hpk : ¬ p = k := fun he => h he.symm
      simp [lookupFS, if_neg h, ih, hpk]

theorem lookupFS_filter_true (m : KnownMap) (p : String) (f : String → Bool)
    (hf : f p = true) :
    lookupFS (m.filter (fun kv => f kv.1)) p = lookupFS m p := by
  induction m with
  | nil => rfl
  | cons kv rest ih =>
    obtain ⟨k, v⟩ := kv
    by_cases h : k = p
    · subst h
      simp [List.filter_cons, hf, lookupFS]
    · by_cases hk : f k
      · simp [List.filter_cons, hk, lookupFS, if_neg h, ih]
      · simp only [List.filter_cons]
        rw [if_neg (by simp [hk])]
        rw [ih]
        simp [lookupFS, if_neg h]

theorem lookupFS_filter_false (m : KnownMap) (p : String) (f : String → Bool)
    (hf : f p = false) :
    lookupFS (m.filter (fun kv => f kv.1)) p = none := by
  induction m with
  | nil => rfl
  | cons kv rest ih =>
    obtain ⟨k, v⟩ := kv
    by_cases h : k = p
    · subst h
      simp only [List.filter_cons]
      rw [if_neg (by simp [hf])]
      exact ih
    · by_cases hk : f k
      · simp [List.filter_cons, hk, lookupFS, if_neg h, ih]
      · simp only [List.filter_cons]
        rw [if_neg (by simp [hk])]
        exact ih

/-- C10: a file whose stat call fails during the scan is skipped for
classification in that cycle: it is reported neither new nor modified, it
is not reported deleted (its path was recorded as observed before the
stat), and its snapshot entry is exactly what it was before the cycle — a
previously unknown file is not added and a known file keeps its old entry. -/
theorem scan_statfail_skips (known : KnownMap) (obs : List ObsEntry) (e : ObsEntry)
    (hnd : (obs.map ObsEntry.path).Nodup) (he : e ∈ obs) (hs : e.stat = none) :
    e.path ∉ (scan_for_changes known obs).newFiles ∧
    e.path ∉ (scan_for_changes known obs).modifiedFiles ∧
    e.path ∉ (scan_for_changes known obs).deletedFiles ∧
    lookupFS (scan_for_changes known obs).state e.path = lookupFS known e.path := by
  obtain ⟨h1, h2, h3⟩ := scanLoop_statfail_spec obs known e hnd he hs
  have hcur : e.path ∈ obs.map ObsEntry.path := List.mem_map.mpr ⟨e, he, rfl⟩
  have hcont : (obs.map ObsEntry.path).contains e.path = true := by
    rw [List.contains, List.elem_iff]
    exact hcur
  refine ⟨h1, h2, ?_, ?_⟩
  · intro hmem
    unfold scan_for_changes at hmem
    dsimp only at hmem
    have hf := (List.mem_filter.mp hmem).2
    rw [hcont] at hf
    exact Bool.false_ne_true hf
  · show lookupFS ((scanLoop obs known).2.2.filter
      (fun kv => (obs.map ObsEntry.path).contains kv.1)) e.path = lookupFS known e.path
    rw [lookupFS_filter_true _ _ _ hcont, h3]

/-- A concrete prior state for the change-detector witnesses. -/
def c10known : KnownMap := [("K", { path := "K", size := 1, modified := 1 })]

/-- Witness for C10: the stat of the single observed (and already known)
file fails; nothing is reported and its entry is untouched. -/
theorem scan_statfail_skips_witness :
    "K" ∉ (scan_for_changes c10known [⟨"K", none⟩]).newFiles ∧
    "K" ∉ (scan_for_changes c10known [⟨"K", none⟩]).modifiedFiles ∧
    "K" ∉ (scan_for_changes c10known [⟨"K", none⟩]).deletedFiles ∧
    lookupFS (scan_for_changes c10known [⟨"K", none⟩]).state "K" = lookupFS c10known "K" :=
  scan_statfail_skips c10known [⟨"K", none⟩] ⟨"K", none⟩ (by decide) (by decide) rfl

/-- C2: the change detector classifies exactly as specified: an observed
path not in the prior state is reported new and inserted into the state;
a path present in both whose size or modification time differs is
reported modified and its entry updated; a path in the prior state but
absent from the observation is reported deleted and removed; and when the
prior state equals the observation, a cycle reports zero new, modified
and deleted entries and an empty affected-album set. -/
theorem scan_classification (known : KnownMap) (obs : List ObsEntry)
    (hnd : (obs.map ObsEntry.path).Nodup) :
    (∀ e ∈ obs, ∀ s, e.stat = some s → lookupFS known e.path = none →
      e.path ∈ (scan_for_changes known obs).newFiles ∧
      lookupFS (scan_for_changes known obs).state e.path = some (obsFileState e s)) ∧
    (∀ e ∈ obs, ∀ s old, e.stat = some s → lookupFS known e.path = some old →
      (s.size ≠ old.size ∨ s.modified ≠ old.modified) →
      e.path ∈ (scan_for_changes known obs).modifiedFiles ∧
      lookupFS (scan_for_changes known obs).state e.path = some (obsFileState e s)) ∧
    (∀ p, (lookupFS known p).isSome = true → p ∉ obs.map ObsEntry.path →
      p ∈ (scan_for_changes known obs).deletedFiles ∧
      lookupFS (scan_for_changes known obs).state p = none) ∧
    ((∀ e ∈ obs, ∃ s, e.stat = some s ∧
        lookupFS known e.path = some (obsFileState e s)) →
     (∀ p ∈ known.map Prod.fst, p ∈ obs.map ObsEntry.path) →
      scan_for_changes known obs = ⟨[], [], [], known⟩ ∧
      ∀ cb now lastScan dur, run_once cb now ⟨known, lastScan⟩ dur obs =
        Except.ok (⟨0, 0, 0, 0⟩, ⟨known, now⟩, ⟨now, known⟩)) := by
  have hstate : ∀ p, p ∈ obs.map ObsEntry.path →
      lookupFS (scan_for_changes known obs).state p = lookupFS (scanLoop obs known).2.2 p := by
    intro p hp
    have hcont : (obs.map ObsEntry.path).contains p = true := by
      rw [List.contains, List.elem_iff]
      exact hp
    show lookupFS ((scanLoop obs known).2.2.filter
      (fun kv => (obs.map ObsEntry.path).contains kv.1)) p = _
    rw [lookupFS_filter_true _ _ _ hcont]
  refine ⟨?_, ?_, ?_, ?_⟩
  · intro e he s hs hl
    have hcur : e.path ∈ obs.map ObsEntry.path := List.mem_map.mpr ⟨e, he, rfl⟩
    obtain ⟨h1, h2⟩ := scanLoop_new_spec obs known e s hnd he hs hl
    exact ⟨h1, by rw [hstate e.path hcur, h2]⟩
  · intro e he s old hs hl hdiff
    have hcur : e.path ∈ obs.map ObsEntry.path := List.mem_map.mpr ⟨e, he, rfl⟩
    obtain ⟨h1, h2⟩ := scanLoop_mod_spec obs known e s old hnd he hs hl hdiff
    exact ⟨h1, by rw [hstate e.path hcur, h2]⟩
  · intro p hsome hnotin
    have hcont : (obs.map ObsEntry.path).contains p = false := by
      rw [List.contains]
      rcases hb : List.elem p (obs.map ObsEntry.path) with _ | _
      · rfl
      · exact absurd (List.elem_iff.mp hb) hnotin
    have hun : lookupFS (scanLoop obs known).2.2 p = lookupFS known p :=
      scanLoop_lookup_untouched obs known p hnotin
    have hkey : p ∈ (scanLoop obs known).2.2.map Prod.fst := by
      rw [← lookupFS_isSome_iff, hun]
      exact hsome
    constructor
    · show p ∈ ((scanLoop obs known).2.2.map Prod.fst).filter
        (fun q => !((obs.map ObsEntry.path).contains q))
      exact List.mem_filter.mpr ⟨hkey, by rw [hcont]; rfl⟩
    · show lookupFS ((scanLoop obs known).2.2.filter
        (fun kv => (obs.map ObsEntry.path).contains kv.1)) p = none
      exact lookupFS_filter_false _ _ _ hcont
  · intro hmatch hkeys
    have hloop : scanLoop obs known = ([], [], known) := scanLoop_id obs known hmatch
    have hscan : scan_for_changes known obs = ⟨[], [], [], known⟩ := by
      unfold scan_for_changes
      rw [hloop]
      have hdel : (known.map Prod.fst).filter
          (fun p => !((obs.map ObsEntry.path).contains p)) = [] := by
        apply List.filter_eq_nil_iff.mpr
        intro p hp
        have hc : (obs.map ObsEntry.path).contains p = true := by
          rw [List.contains, List.elem_iff]
          exact hkeys p hp
        rw [hc]
        exact Bool.not_eq_true _ ▸ (by simp)
      have hflt : known.filter (fun kv => (obs.map ObsEntry.path).contains kv.1) = known := by
        apply List.filter_eq_self.mpr
        intro kv hkv
        rw [List.contains, List.elem_iff]
        exact hkeys kv.1 (List.mem_map.mpr ⟨kv, hkv, rfl⟩)
      dsimp only
      rw [hdel, hflt]
    refine ⟨hscan, ?_⟩
    intro cb now lastScan dur
    unfold run_once
    dsimp only
    rw [hscan]
    rfl

/-- Concrete prior state for the C2 witness: one file that will be
observed modified, one that will turn out deleted. -/
def c2known : KnownMap :=
  [("A\\old.flac", { path := "A\\old.flac", size := 1, modified := 1 }),
   ("A\\mod.flac", { path := "A\\mod.flac", size := 2, modified := 2 })]

/-- Concrete observation for the C2 witness: one new file and the known
file with a changed mtime. -/
def c2obs : List ObsEntry :=
  [⟨"A\\new.flac", some ⟨5, 5⟩⟩, ⟨"A\\mod.flac", some ⟨2, 9⟩⟩]

/-- Witness for C2 at a concrete cycle: the unknown observed path is
reported new and inserted, the changed path is reported modified and
updated, the vanished path is reported deleted and removed. -/
theorem scan_classification_witness :
    "A\\new.flac" ∈ (scan_for_changes c2known c2obs).newFiles ∧
    lookupFS (scan_for_changes c2known c2obs).state "A\\new.flac" =
      some { path := "A\\new.flac", size := 5, modified := 5 } ∧
    "A\\mod.flac" ∈ (scan_for_changes c2known c2obs).modifiedFiles ∧
    lookupFS (scan_for_changes c2known c2obs).state "A\\mod.flac" =
      some { path := "A\\mod.flac", size := 2, modified := 9 } ∧
    "A\\old.flac" ∈ (scan_for_changes c2known c2obs).deletedFiles ∧
    lookupFS (scan_for_changes c2known c2obs).state "A\\old.flac" = none :=
  have h := scan_classification c2known c2obs (by decide)
  have ha := h.1 ⟨"A\\new.flac", some ⟨5, 5⟩⟩ (by decide) ⟨5, 5⟩ rfl (by decide)
  have hb := h.2.1 ⟨"A\\mod.flac", some ⟨2, 9⟩⟩ (by decide) ⟨2, 9⟩
    { path := "A\\mod.flac", size := 2, modified := 2 } rfl (by decide) (by decide)
  have hc := h.2.2.1 "A\\old.flac" (by decide) (by decide)
  ⟨ha.1, ha.2, hb.1, hb.2, hc.1, hc.2⟩

/-! ### Track-filename format -/

/-- The track-filename format in the words of the specification: the
extension is taken from the original file path, lower-cased, defaulting to
.flac when the path is absent; the title is the sanitized title with the
Unknown Track fallback; the track number is zero-padded to two digits; a
disc prefix is added when total_discs > 1 or disc_number > 1. -/
def trackFilenameSpec (meta : TrackMetadata) : String :=
  let e := if meta.file_path = "" then ".flac"
           else String.mk ((pathSuffix meta.file_path).data.map Char.toLower)
  let title := sanitize_filename (if meta.title = "" then "Unknown Track" else meta.title)
  if meta.total_discs > 1 ∨ meta.disc_number > 1 then
    toString meta.disc_number ++ "-" ++ pad2 meta.track_number ++ " - " ++ title ++ e
  else
    pad2 meta.track_number ++ " - " ++ title ++ e

/-- C8 counterexample: at track_number 0 the code substitutes 1 and emits
"01", not the zero-padded track number "00" the claimed format requires. -/
theorem trackFilename_zero_track_diverges :
    generate_track_filename { title := "X" } ≠ trackFilenameSpec { title := "X" } ∧
    generate_track_filename { title := "X" } = "01 - X.flac" ∧
    trackFilenameSpec { title := "X" } = "00 - X.flac" :=
  ⟨by decide, by decide, by decide⟩

/-- C8 amended: for metadata whose track number and disc number are at
least 1 (the code falls back to 1 when either is 0), the generated
filename is exactly the claimed format — zero-padded track number,
sanitized title with fallback, lower-cased extension defaulting to .flac
when the file path is absent, disc prefix exactly when total_discs > 1 or
disc_number > 1 — and the multi-disc example produces 2-05 - Money.flac. -/
theorem generate_track_filename_spec :
    (∀ meta : TrackMetadata, 1 ≤ meta.track_number → 1 ≤ meta.disc_number →
      generate_track_filename meta = trackFilenameSpec meta) ∧
    generate_track_filename
      { title := "Money", track_number := 5, disc_number := 2, total_discs := 2 } =
      "2-05 - Money.flac" := by
  constructor
  · intro meta ht hd
    have h1 : ¬ meta.track_number = 0 := by omega
    have h2 : ¬ meta.disc_number = 0 := by omega
    by_cases hfp : meta.file_path = "" <;>
      simp [generate_track_filename, trackFilenameSpec, hfp, h1, h2]
  · decide

/-- Witness for C8 amended at the multi-disc example. -/
theorem generate_track_filename_spec_witness :
    generate_track_filename
      { title := "Money", track_number := 5, disc_number := 2, total_discs := 2 } =
    trackFilenameSpec
      { title := "Money", track_number := 5, disc_number := 2, total_discs := 2 } :=
  generate_track_filename_spec.1 _ (by decide) (by decide)

/-! ### Lemmas about path splitting and joining -/

theorem splitChar_ne_nil (sep : Char) (l : List Char) : splitChar sep l ≠ [] := by
  cases l with
  | nil => simp [splitChar]
  | cons c cs =>
    unfold splitChar
    cases h : splitChar sep cs with
    | nil => simp
    | cons a t => by_cases hc : c == sep <;> simp [hc]

theorem mem_splitChar_no_sep (sep : Char) (l : List Char) :
    ∀ x ∈ splitChar sep l, sep ∉ x := by
  induction l with
  | nil =>
    intro x hx
    simp [splitChar] at hx
    simp [hx]
  | cons c cs ih =>
    intro x hx
    unfold splitChar at hx
    cases h : splitChar sep cs with
    | nil => exact absurd h (splitChar_ne_nil sep cs)
    | cons a t =>
      rw [h] at hx
      dsimp only at hx
      by_cases hc : c == sep
      · rw [if_pos hc] at hx
        rcases List.mem_cons.mp hx with h1 | h1
        · simp [h1]
        · exact ih x (h ▸ h1)
      · rw [if_neg hc] at hx
        rcases List.mem_cons.mp hx with h1 | h1
        · subst h1
          intro hmem
          rcases List.mem_cons.mp hmem with h2 | h2
          · rw [h2] at hc
            exact hc (by simp)
          · exact ih a (h ▸ List.mem_cons_self a t) h2
        · exact ih x (h ▸ List.mem_cons_of_mem a h1)

theorem mem_of_mem_splitChar (sep : Char) (l : List Char) :
    ∀ x ∈ splitChar sep l, ∀ c ∈ x, c ∈ l := by
  induction l with
  | nil =>
    intro x hx c hc
    simp [splitChar] at hx
    subst hx
    cases hc
  | cons b cs ih =>
    intro x hx c hc
    unfold splitChar at hx
    cases h : splitChar sep cs with
    | nil => exact absurd h (splitChar_ne_nil sep cs)
    | cons a t =>
      rw [h] at hx
      dsimp only at hx
      by_cases hb : b == sep
      · rw [if_pos hb] at hx
        rcases List.mem_cons.mp hx with h1 | h1
        · subst h1
          cases hc
        · exact List.mem_cons_of_mem b (ih x (h ▸ h1) c hc)
      · rw [if_neg hb] at hx
        rcases List.mem_cons.mp hx with h1 | h1
        · subst h1
          rcases List.mem_cons.mp hc with h2 | h2
          · exact h2 ▸ List.mem_cons_self b cs
          · exact List.mem_cons_of_mem b (ih a (h ▸ List.mem_cons_self a t) c h2)
        · exact List.mem_cons_of_mem b (ih x (h ▸ List.mem_cons_of_mem a h1) c hc)

theorem splitChar_no_sep_eq (sep : Char) (x : List Char) (hx : sep ∉ x) :
    splitChar sep x = [x] := by
  induction x with
  | nil => rfl
  | cons c cs ih =>
    have hcs : sep ∉ cs := fun h => hx (List.mem_cons_of_mem c h)
    have hc : ¬ (c == sep) = true := by
      intro hb
      exact hx (beq_iff_eq.mp hb ▸ List.mem_cons_self c cs)
    unfold splitChar
    rw [ih hcs]
    dsimp only
    rw [if_neg hc]

theorem splitChar_sep_free_append (sep : Char) (x : List Char) (hx : sep ∉ x) :
    ∀ l a t, splitChar sep l = a :: t → splitChar sep (x ++ l) = (x ++ a) :: t := by
  induction x with
  | nil =>
    intro l a t h
    simpa using h
  | cons c cs ih =>
    intro l a t h
    have hcs : sep ∉ cs := fun hm => hx (List.mem_cons_of_mem c hm)
    have hc : ¬ (c == sep) = true := by
      intro hb
      exact hx (beq_iff_eq.mp hb ▸ List.mem_cons_self c cs)
    show splitChar sep (c :: (cs ++ l)) = _
    unfold splitChar
    rw [ih hcs l a t h]
    dsimp only
    rw [if_neg hc, List.cons_append]

theorem joinChar_concat (sep : Char) (x : List Char) (ps : List (List Char)) (h : ps ≠ []) :
    joinChar sep (ps ++ [x]) = joinChar sep ps ++ sep :: x := by
  induction ps with
  | nil => exact absurd rfl h
  | cons a t ih =>
    cases t with
    | nil => rfl
    | cons b u =>
      show joinChar sep (a :: (b :: u ++ [x])) = _
      have : joinChar sep (a :: (b :: u ++ [x])) =
          a ++ sep :: joinChar sep (b :: (u ++ [x])) := rfl
      rw [this, ← List.cons_append, ih (by simp)]
      show a ++ sep :: (joinChar sep (b :: u) ++ sep :: x) =
        (a ++ sep :: joinChar sep (b :: u)) ++ sep :: x
      rw [List.append_assoc]
      rfl

theorem splitChar_joinChar (sep : Char) (parts : List (List Char)) (hne : parts ≠ [])
    (hsep : ∀ x ∈ parts, sep ∉ x) :
    splitChar sep (joinChar sep parts) = parts := by
  induction parts with
  | nil => exact absurd rfl hne
  | cons x t ih =>
    cases t with
    | nil => exact splitChar_no_sep_eq sep x (hsep x (List.mem_cons_self x []))
    | cons y u =>
      have hx : sep ∉ x := hsep x (List.mem_cons_self _ _)
      have htail : splitChar sep (joinChar sep (y :: u)) = y :: u :=
        ih (by simp) (fun z hz => hsep z (List.mem_cons_of_mem x hz))
      have hsepcons : splitChar sep (sep :: joinChar sep (y :: u)) =
          [] :: y :: u := by
        unfold splitChar
        rw [htail]
        simp
      have := splitChar_sep_free_append sep x hx
        (sep :: joinChar sep (y :: u)) [] (y :: u) hsepcons
      show splitChar sep (x ++ sep :: joinChar sep (y :: u)) = x :: y :: u
      rw [this, List.append_nil]

theorem mem_joinChar (sep : Char) (ps : List (List Char)) (c : Char)
    (h : c ∈ joinChar sep ps) : c = sep ∨ ∃ x ∈ ps, c ∈ x := by
  induction ps with
  | nil => cases h
  | cons a t ih =>
    cases t with
    | nil =>
      exact Or.inr ⟨a, List.mem_cons_self a [], h⟩
    | cons b u =>
      rcases List.mem_append.mp h with h1 | h1
      · exact Or.inr ⟨a, List.mem_cons_self _ _, h1⟩
      · rcases List.mem_cons.mp h1 with h2 | h2
        · exact Or.inl h2
        · rcases ih h2 with h3 | ⟨x, hx1, hx2⟩
          · exact Or.inl h3
          · exact Or.inr ⟨x, List.mem_cons_of_mem a hx1, hx2⟩

theorem map_toSlash_toBack (l : List Char) (h : '\\' ∉ l) :
    (l.map (fun c => if c == '/' then '\\' else c)).map
      (fun c => if c == '\\' then '/' else c) = l := by
  induction l with
  | nil => rfl
  | cons c cs ih =>
    have hcs : '\\' ∉ cs := fun hm => h (List.mem_cons_of_mem c hm)
    have hc : ¬ c = '\\' := fun he => h (he ▸ List.mem_cons_self c cs)
    simp only [List.map_cons, ih hcs, List.cons.injEq, and_true]
    by_cases h1 : c = '/'
    · simp [h1]
    · have hb1 : ¬ (c == '/') = true := by simp [h1]
      have hb2 : ¬ (c == '\\') = true := by simp [hc]
      rw [if_neg hb1, if_neg hb2]

theorem map_toSlash_id (l : List Char) (h : '\\' ∉ l) :
    l.map (fun c => if c == '\\' then '/' else c) = l := by
  induction l with
  | nil => rfl
  | cons c cs ih =>
    have hcs : '\\' ∉ cs := fun hm => h (List.mem_cons_of_mem c hm)
    have hc : ¬ (c == '\\') = true := by
      simp only [beq_iff_eq]
      exact fun he => h (he ▸ List.mem_cons_self c cs)
    simp only [List.map_cons, ih hcs, if_neg hc]

theorem map_toSlash_no_backslash (l : List Char) :
    '\\' ∉ l.map (fun c => if c == '\\' then '/' else c) := by
  intro h
  rcases List.mem_map.mp h with ⟨c, -, hc⟩
  by_cases h1 : c = '\\'
  · rw [if_pos (by simp [h1])] at hc
    exact absurd hc.symm (by decide)
  · rw [if_neg (by simp [h1])] at hc
    exact h1 hc

theorem dropWhile_head_not (p : Char → Bool) (l : List Char)
    (h : ∀ c, l.head? = some c → p c = false) : l.dropWhile p = l := by
  cases l with
  | nil => rfl
  | cons c cs =>
    rw [List.dropWhile_cons_of_neg]
    rw [h c rfl]
    simp

theorem rstripSlash_id (l : List Char)
    (h : ∀ c, l.getLast? = some c → (c == '/') = false) :
    (l.reverse.dropWhile (fun c => c == '/')).reverse = l := by
  have hh : ∀ c, l.reverse.head? = some c → (fun c => c == '/') c = false := by
    intro c hc
    rw [List.head?_reverse] at hc
    exact h c hc
  rw [dropWhile_head_not _ _ hh, List.reverse_reverse]

theorem mem_rstrip_sub (l : List Char) (c : Char)
    (h : c ∈ (l.reverse.dropWhile (fun c => c == '/')).reverse) : c ∈ l := by
  rw [List.mem_reverse] at h
  exact List.mem_reverse.mp (List.Sublist.mem h (List.dropWhile_sublist _))

theorem headD_mem (l : List String) (hl : l ≠ []) : l.headD "" ∈ l := by
  cases l with
  | nil => exact absurd rfl hl
  | cons a t => exact List.mem_cons_self a t

theorem splitSlash_ne_nil (s : String) : splitSlash s ≠ [] := by
  unfold splitSlash
  intro h
  exact splitChar_ne_nil '/' s.data (List.map_eq_nil_iff.mp h)

theorem mem_splitSlash_no_slash (s : String) (x : String) (hx : x ∈ splitSlash s) :
    '/' ∉ x.data := by
  rcases List.mem_map.mp hx with ⟨y, hy, rfl⟩
  exact mem_splitChar_no_sep '/' s.data y hy

theorem mem_splitSlash_sub (s : String) (x : String) (hx : x ∈ splitSlash s) :
    ∀ c ∈ x.data, c ∈ s.data := by
  rcases List.mem_map.mp hx with ⟨y, hy, rfl⟩
  exact mem_of_mem_splitChar '/' s.data y hy

theorem idealAlbumSegment_no_slash (meta : TrackMetadata) :
    '/' ∉ (idealAlbumSegment meta).data := by
  unfold idealAlbumSegment
  dsimp only
  split
  · exact mem_splitSlash_no_slash _ _ (List.get_mem _ _ _)
  · exact mem_splitSlash_no_slash _ _
      (headD_mem _ (splitSlash_ne_nil (generate_folder_name meta)))

theorem mem_normalized_parts_no_backslash (ap : String) (x : String)
    (hx : x ∈ splitSlash (rstripSlash (normalizeSeps ap))) : '\\' ∉ x.data := by
  intro hc
  have h1 : '\\' ∈ (rstripSlash (normalizeSeps ap)).data :=
    mem_splitSlash_sub _ x hx '\\' hc
  have h2 : '\\' ∈ (normalizeSeps ap).data := mem_rstrip_sub _ '\\' h1
  exact map_toSlash_no_backslash ap.data h2

/-- Core disequality for C9: provided the canonical album segment is
nonempty and free of separators, the reconstructed destination of the
album-folder action differs from the source album path whenever the
current album basename differs from the canonical one. -/
theorem album_dst_ne_src (album_path ideal : String)
    (hne : ideal ≠ "") (hbs : '\\' ∉ ideal.data) (hsl : '/' ∉ ideal.data)
    (hlen : ¬ (splitSlash (rstripSlash (normalizeSeps album_path))).length < 2)
    (hcur : ¬ (splitSlash (rstripSlash (normalizeSeps album_path))).getLastD "" = ideal) :
    ¬ album_path =
      joinSlashBack (splitSlash (rstripSlash (normalizeSeps album_path))).dropLast
        ++ "\\" ++ ideal := by
  intro heq
  set parts := splitSlash (rstripSlash (normalizeSeps album_path)) with hPdef
  have hpartsne : parts ≠ [] := by
    rw [hPdef]
    exact splitSlash_ne_nil _
  have hpsne : parts.dropLast ≠ [] := by
    have hld := List.length_dropLast parts
    intro h
    rw [h] at hld
    simp only [List.length_nil] at hld
    omega
  have hnob : ∀ x ∈ parts.dropLast, '\\' ∉ x.data := by
    intro x hx
    exact mem_normalized_parts_no_backslash album_path x
      (hPdef ▸ List.mem_of_mem_dropLast hx)
  have hnos : ∀ x ∈ parts.dropLast, '/' ∉ x.data := by
    intro x hx
    refine mem_splitSlash_no_slash (rstripSlash (normalizeSeps album_path)) x ?_
    exact hPdef ▸ List.mem_of_mem_dropLast hx
  have hjoin_nob : '\\' ∉ joinChar '/' (parts.dropLast.map String.data) := by
    intro hc
    rcases mem_joinChar '/' _ '\\' hc with h | ⟨y, hy, hcy⟩
    · exact absurd h (by decide)
    · rcases List.mem_map.mp hy with ⟨xs, hxs, rfl⟩
      exact hnob xs hxs hcy
  have hdata : album_path.data =
      (joinChar '/' (parts.dropLast.map String.data)).map
        (fun c => if c == '/' then '\\' else c) ++ '\\' :: ideal.data := by
    have h0 := congrArg String.data heq
    rw [String.data_append, String.data_append, List.append_assoc] at h0
    rw [h0]
    rfl
  have hN : (normalizeSeps album_path).data =
      joinChar '/' (parts.dropLast.map String.data) ++ '/' :: ideal.data := by
    have h0 : (normalizeSeps album_path).data =
        album_path.data.map (fun c => if c == '\\' then '/' else c) := rfl
    rw [h0, hdata, List.map_append, map_toSlash_toBack _ hjoin_nob]
    congr 1
    show (fun c => if c == '\\' then '/' else c) '\\' ::
      ideal.data.map (fun c => if c == '\\' then '/' else c) = '/' :: ideal.data
    rw [map_toSlash_id _ hbs]
    rfl
  have hidne : ideal.data ≠ [] := by
    intro h
    exact hne (String.ext h)
  have hlast : ∀ c,
      (joinChar '/' (parts.dropLast.map String.data) ++ '/' :: ideal.data).getLast? =
        some c → (c == '/') = false := by
    intro c hc
    rw [List.getLast?_append] at hc
    have hsome : ('/' :: ideal.data).getLast?.isSome = true :=
      List.getLast?_isSome.mpr (by simp)
    rw [Option.or_of_isSome hsome] at hc
    have hgl : ('/' :: ideal.data).getLast? = some (ideal.data.getLast hidne) := by
      rw [List.getLast?_cons, List.getLast?_eq_getLast ideal.data hidne]
      rfl
    rw [hgl] at hc
    have hcc : c = ideal.data.getLast hidne := (Option.some.injEq _ _ ▸ hc).symm
    have hmem : ideal.data.getLast hidne ∈ ideal.data := List.getLast_mem hidne
    rw [hcc, beq_eq_false_iff_ne]
    intro hbad
    rw [hbad] at hmem
    exact hsl hmem
  have hNr : rstripSlash (normalizeSeps album_path) = String.mk
      (joinChar '/' (parts.dropLast.map String.data) ++ '/' :: ideal.data) := by
    have h0 : rstripSlash (normalizeSeps album_path) = String.mk
        (((normalizeSeps album_path).data.reverse.dropWhile (fun c => c == '/')).reverse) :=
      rfl
    rw [h0, hN, rstripSlash_id _ hlast]
  have hps2ne : parts.dropLast.map String.data ≠ [] := by
    intro h
    exact hpsne (List.map_eq_nil_iff.mp h)
  have hsepfree : ∀ x ∈ parts.dropLast.map String.data ++ [ideal.data], '/' ∉ x := by
    intro x hx
    rcases List.mem_append.mp hx with h | h
    · rcases List.mem_map.mp h with ⟨xs, hxs, rfl⟩
      exact hnos xs hxs
    · rw [List.mem_singleton.mp h]
      exact hsl
  have hsplitall : splitSlash (String.mk
      (joinChar '/' (parts.dropLast.map String.data) ++ '/' :: ideal.data)) =
      parts.dropLast ++ [ideal] := by
    have h0 : splitSlash (String.mk
        (joinChar '/' (parts.dropLast.map String.data) ++ '/' :: ideal.data)) =
        (splitChar '/'
          (joinChar '/' (parts.dropLast.map String.data) ++ '/' :: ideal.data)).map
          String.mk := rfl
    rw [h0, ← joinChar_concat '/' ideal.data _ hps2ne,
        splitChar_joinChar '/' _ (by simp) hsepfree,
        List.map_append, List.map_map]
    have hcomp : String.mk ∘ String.data = id := funext (fun s => rfl)
    rw [hcomp, List.map_id]
    rfl
  have hparts2 : parts = parts.dropLast ++ [ideal] := by
    conv_lhs => rw [hPdef, hNr]
    exact hsplitall
  have hdecomp : parts.dropLast ++ [parts.getLast hpartsne] = parts :=
    List.dropLast_append_getLast hpartsne
  conv_lhs at hparts2 => rw [← hdecomp]
  have hsing := List.append_cancel_left hparts2
  have hgl2 : parts.getLast hpartsne = ideal := by
    injection hsing
  apply hcur
  rw [List.getLastD_eq_getLast?, List.getLast?_eq_getLast _ hpartsne]
  exact hgl2

/-- C9 counterexample: the format tag is not sanitized, so a format string
holding a backslash-slash pair makes the canonical album segment end in a
backslash; with an album path carrying a trailing backslash the planner
then emits an album-folder action whose destination equals its source. -/
theorem calculate_renames_self_action :
    (calculate_renames "X\\Alb [Q\\" []
      { album_artist := "Artist", album := "Alb", format := "Q\\/R" } none).any
        (fun a => a.src == a.dst) = true := by
  decide

/-- C9 amended: whenever the canonical album segment is nonempty and free
of backslashes (true for every sanitized name; only the unsanitized format
tag can violate it), no action emitted by calculate_renames has its source
equal to its destination. -/
theorem calculate_renames_no_self (album_path : String) (tracks : List FileInfo)
    (album_meta : TrackMetadata)
    (track_metadata : Option (List (String × TrackMetadata)))
    (h1 : idealAlbumSegment album_meta ≠ "")
    (h2 : '\\' ∉ (idealAlbumSegment album_meta).data) :
    ∀ a ∈ calculate_renames album_path tracks album_meta track_metadata,
      ¬ a.src = a.dst := by
  intro a ha
  unfold calculate_renames at ha
  by_cases hlen : (splitSlash (rstripSlash (normalizeSeps album_path))).length < 2
  · rw [if_pos hlen] at ha
    exact absurd ha (List.not_mem_nil a)
  · rw [if_neg hlen] at ha
    dsimp only at ha
    by_cases hren : (splitSlash (rstripSlash (normalizeSeps album_path))).getLastD "" ≠
        idealAlbumSegment album_meta
    · simp only [if_pos hren] at ha
      rcases List.mem_append.mp ha with hfold | hfile
      · have ha2 := List.mem_singleton.mp hfold
        rw [ha2]
        exact album_dst_ne_src album_path (idealAlbumSegment album_meta) h1 h2
          (idealAlbumSegment_no_slash album_meta) hlen hren
      · cases track_metadata with
        | none => exact absurd hfile (List.not_mem_nil a)
        | some tm =>
          rcases List.mem_filterMap.mp hfile with ⟨ti, hti, hmap⟩
          cases hlookm : lookupMeta tm ti.path with
          | none =>
            rw [hlookm] at hmap
            exact absurd hmap (by simp)
          | some tmeta =>
            rw [hlookm] at hmap
            dsimp only at hmap
            by_cases hn : ti.name = generate_track_filename tmeta
            · rw [if_pos hn] at hmap
              exact absurd hmap (by simp)
            · rw [if_neg hn] at hmap
              by_cases hsd :
                  (joinSlashBack (splitSlash (rstripSlash
                      (normalizeSeps album_path))).dropLast ++ "\\" ++
                    idealAlbumSegment album_meta) ++ "\\" ++ ti.name =
                  (joinSlashBack (splitSlash (rstripSlash
                      (normalizeSeps album_path))).dropLast ++ "\\" ++
                    idealAlbumSegment album_meta) ++ "\\" ++
                    generate_track_filename tmeta
              · rw [if_pos hsd] at hmap
                exact absurd hmap (by simp)
              · rw [if_neg hsd] at hmap
                have ha2 := (Option.some.injEq _ _).mp hmap
                rw [← ha2]
                exact hsd
    · simp only [if_neg hren] at ha
      rw [List.nil_append] at ha
      cases track_metadata with
      | none => exact absurd ha (List.not_mem_nil a)
      | some tm =>
        rcases List.mem_filterMap.mp ha with ⟨ti, hti, hmap⟩
        cases hlookm : lookupMeta tm ti.path with
        | none =>
          rw [hlookm] at hmap
          exact absurd hmap (by simp)
        | some tmeta =>
          rw [hlookm] at hmap
          dsimp only at hmap
          by_cases hn : ti.name = generate_track_filename tmeta
          · rw [if_pos hn] at hmap
            exact absurd hmap (by simp)
          · rw [if_neg hn] at hmap
            by_cases hsd : ti.path = album_path ++ "\\" ++ generate_track_filename tmeta
            · rw [if_pos hsd] at hmap
              exact absurd hmap (by simp)
            · rw [if_neg hsd] at hmap
              have ha2 := (Option.some.injEq _ _).mp hmap
              rw [← ha2]
              exact hsd

/-- Witness for C9 amended at a concrete album needing a rename: the single
emitted action moves root backslash Wrong to the canonical folder, and its
source differs from its destination. -/
theorem calculate_renames_no_self_witness :
    ¬ ("root\\Wrong" : String) = "root\\Alb [Unknown]" :=
  calculate_renames_no_self "root\\Wrong" []
    { album_artist := "Artist", album := "Alb" } none (by decide) (by decide)
    { src := "root\\Wrong", dst := "root\\Alb [Unknown]",
      action_type := "album_folder",
      description := "Rename album: Wrong → Alb [Unknown]" }
    (by decide)

/-! ### Lemmas about the sanitize pipeline -/

theorem mem_subInvalid (repl l : List Char) (c : Char) (h : c ∈ subInvalid repl l) :
    c ∈ repl ∨ (c ∈ l ∧ invalidChar c = false) := by
  induction l with
  | nil => cases h
  | cons d ds ih =>
    unfold subInvalid at h
    by_cases hd : invalidChar d
    · rw [if_pos hd] at h
      rcases List.mem_append.mp h with h1 | h1
      · exact Or.inl h1
      · rcases ih h1 with h2 | ⟨h2, h3⟩
        · exact Or.inl h2
        · exact Or.inr ⟨List.mem_cons_of_mem d h2, h3⟩
    · rw [if_neg hd] at h
      rcases List.mem_cons.mp h with h1 | h1
      · subst h1
        exact Or.inr ⟨List.mem_cons_self c ds, by simpa using hd⟩
      · rcases ih h1 with h2 | ⟨h2, h3⟩
        · exact Or.inl h2
        · exact Or.inr ⟨List.mem_cons_of_mem d h2, h3⟩

theorem ascii_pyspace_eq_space (c : Char) (hws : isPySpace c = true)
    (hascii : c.toNat < 128) (hinv : invalidChar c = false) : c = ' ' := by
  simp only [isPySpace, Bool.or_eq_true, beq_iff_eq, decide_eq_true_eq, or_assoc] at hws
  rcases hws with h | h | h | h | h | h | h | h | h | h | h | h | h | h | h | h | h | h | h <;>
    first
      | omega
      | (subst h; revert hinv hascii; decide)

theorem subInvalid_id (repl l : List Char) (h : ∀ c ∈ l, invalidChar c = false) :
    subInvalid repl l = l := by
  induction l with
  | nil => rfl
  | cons d ds ih =>
    unfold subInvalid
    rw [if_neg (by simp [h d (List.mem_cons_self d ds)]),
        ih (fun c hc => h c (List.mem_cons_of_mem d hc))]

theorem mem_stripSpaceDot (l : List Char) (c : Char) (h : c ∈ stripSpaceDot l) :
    c ∈ l := by
  unfold stripSpaceDot at h
  rw [List.mem_reverse] at h
  have h1 := List.Sublist.mem h (List.dropWhile_sublist _)
  rw [List.mem_reverse] at h1
  exact List.Sublist.mem h1 (List.dropWhile_sublist _)

theorem mem_collapseAux (p : Char → Bool) (r : Char) (b : Bool) (l : List Char) (c : Char)
    (h : c ∈ collapseAux p r b l) : c = r ∨ c ∈ l := by
  induction l generalizing b with
  | nil => cases h
  | cons d ds ih =>
    unfold collapseAux at h
    by_cases hd : p d
    · rw [if_pos hd] at h
      by_cases hb : b
      · rw [if_pos hb] at h
        rcases ih true h with h1 | h1
        · exact Or.inl h1
        · exact Or.inr (List.mem_cons_of_mem d h1)
      · rw [if_neg hb] at h
        rcases List.mem_cons.mp h with h1 | h1
        · exact Or.inl h1
        · rcases ih true h1 with h2 | h2
          · exact Or.inl h2
          · exact Or.inr (List.mem_cons_of_mem d h2)
    · rw [if_neg hd] at h
      rcases List.mem_cons.mp h with h1 | h1
      · exact Or.inr (h1 ▸ List.mem_cons_self d ds)
      · rcases ih false h1 with h2 | h2
        · exact Or.inl h2
        · exact Or.inr (List.mem_cons_of_mem d h2)

theorem dropWhile_head_false (q : Char → Bool) (l : List Char) (c : Char)
    (h : (l.dropWhile q).head? = some c) : q c = false := by
  induction l with
  | nil => cases h
  | cons d ds ih =>
    by_cases hd : q d
    · rw [List.dropWhile_cons_of_pos hd] at h
      exact ih h
    · rw [List.dropWhile_cons_of_neg hd] at h
      have : d = c := by
        simpa using h
      rw [← this]
      simpa using hd

theorem dropWhile_getLast (q : Char → Bool) (l : List Char)
    (h : l.dropWhile q ≠ []) : (l.dropWhile q).getLast? = l.getLast? := by
  induction l with
  | nil => rfl
  | cons d ds ih =>
    by_cases hd : q d
    · rw [List.dropWhile_cons_of_pos hd] at h ⊢
      have hds : ds ≠ [] := by
        intro hn
        rw [hn] at h
        simp at h
      rw [ih h]
      cases ds with
      | nil => exact absurd rfl hds
      | cons a t => rw [List.getLast?_cons_cons]
    · rw [List.dropWhile_cons_of_neg hd]

theorem stripSpaceDot_head (l : List Char) (c : Char)
    (h : (stripSpaceDot l).head? = some c) : isSpaceDot c = false := by
  unfold stripSpaceDot at h
  rw [List.head?_reverse] at h
  have hne : (l.dropWhile isSpaceDot).reverse.dropWhile isSpaceDot ≠ [] := by
    intro hn
    rw [hn] at h
    cases h
  rw [dropWhile_getLast _ _ hne, List.getLast?_reverse] at h
  exact dropWhile_head_false _ _ _ h

theorem stripSpaceDot_getLast (l : List Char) (c : Char)
    (h : (stripSpaceDot l).getLast? = some c) : isSpaceDot c = false := by
  unfold stripSpaceDot at h
  rw [List.getLast?_reverse] at h
  exact dropWhile_head_false _ _ _ h

theorem stripSpaceDot_id (l : List Char)
    (hh : ∀ c, l.head? = some c → isSpaceDot c = false)
    (hl : ∀ c, l.getLast? = some c → isSpaceDot c = false) :
    stripSpaceDot l = l := by
  unfold stripSpaceDot
  rw [dropWhile_head_not _ _ hh]
  have hh2 : ∀ c, l.reverse.head? = some c → isSpaceDot c = false := by
    intro c hc
    rw [List.head?_reverse] at hc
    exact hl c hc
  rw [dropWhile_head_not _ _ hh2, List.reverse_reverse]

theorem collapseAux_cons_neg (p : Char → Bool) (r : Char) (b : Bool) (c : Char)
    (cs : List Char) (hc : p c = false) :
    collapseAux p r b (c :: cs) = c :: collapseAux p r false cs := by
  simp [collapseAux, hc]

theorem collapseAux_true_head (p : Char → Bool) (r : Char) (l : List Char) (c : Char)
    (h : (collapseAux p r true l).head? = some c) : p c = false := by
  induction l with
  | nil => cases h
  | cons d ds ih =>
    by_cases hd : p d
    · rw [show collapseAux p r true (d :: ds) = collapseAux p r true ds from by
        simp [collapseAux, hd]] at h
      exact ih h
    · rw [collapseAux_cons_neg p r true d ds (by simpa using hd)] at h
      have hdc : d = c := by simpa using h
      rw [← hdc]
      simpa using hd

theorem collapseAux_false_head (p : Char → Bool) (r : Char) (l : List Char) (c : Char)
    (h : (collapseAux p r false l).head? = some c) : c = r ∨ l.head? = some c := by
  cases l with
  | nil => cases h
  | cons d ds =>
    by_cases hd : p d
    · rw [show collapseAux p r false (d :: ds) = r :: collapseAux p r true ds from by
        simp [collapseAux, hd]] at h
      have : r = c := by simpa using h
      exact Or.inl this.symm
    · rw [collapseAux_cons_neg p r false d ds (by simpa using hd)] at h
      have : d = c := by simpa using h
      exact Or.inr (by rw [← this]; rfl)

theorem collapseAux_chain (p : Char → Bool) (r : Char) (l : List Char) :
    ∀ b, List.Chain' (fun a c => ¬(p a = true ∧ p c = true)) (collapseAux p r b l) := by
  induction l with
  | nil =>
    intro b
    simp [collapseAux]
  | cons c cs ih =>
    intro b
    by_cases hc : p c
    · by_cases hb : b
      · rw [show collapseAux p r b (c :: cs) = collapseAux p r true cs from by
          simp [collapseAux, hc, hb]]
        exact ih true
      · rw [show collapseAux p r b (c :: cs) = r :: collapseAux p r true cs from by
          simp [collapseAux, hc, hb]]
        rw [List.chain'_cons']
        refine ⟨?_, ih true⟩
        intro y hy hcontra
        rw [collapseAux_true_head p r cs y hy] at hcontra
        exact Bool.false_ne_true hcontra.2
    · rw [collapseAux_cons_neg p r b c cs (by simpa using hc)]
      rw [List.chain'_cons']
      refine ⟨?_, ih false⟩
      intro y hy hcontra
      rw [(by simpa using hc : p c = false)] at hcontra
      exact Bool.false_ne_true hcontra.1

theorem collapseAux_true_eq_false_of_head (p : Char → Bool) (r : Char) (cs : List Char)
    (h : ∀ c, cs.head? = some c → p c = false) :
    collapseAux p r true cs = collapseAux p r false cs := by
  cases cs with
  | nil => rfl
  | cons d ds =>
    have hd := h d rfl
    rw [collapseAux_cons_neg p r true d ds hd, collapseAux_cons_neg p r false d ds hd]

theorem collapseAux_id (p : Char → Bool) (r : Char) (l : List Char)
    (h1 : ∀ c ∈ l, p c = true → c = r)
    (h2 : List.Chain' (fun a c => ¬(p a = true ∧ p c = true)) l) :
    collapseAux p r false l = l := by
  induction l with
  | nil => rfl
  | cons c cs ih =>
    rw [List.chain'_cons'] at h2
    obtain ⟨hhead, htail⟩ := h2
    have ihcs : collapseAux p r false cs = cs :=
      ih (fun x hx hp => h1 x (List.mem_cons_of_mem c hx) hp) htail
    by_cases hc : p c
    · have hcr : c = r := h1 c (List.mem_cons_self c cs) hc
      have hote : collapseAux p r true cs = collapseAux p r false cs := by
        refine collapseAux_true_eq_false_of_head p r cs ?_
        intro d hd
        by_cases hpd : p d
        · exact absurd ⟨hc, hpd⟩ (hhead d hd)
        · simpa using hpd
      rw [show collapseAux p r false (c :: cs) = r :: collapseAux p r true cs from by
        simp [collapseAux, hc]]
      rw [hote, ihcs, ← hcr]
    · rw [collapseAux_cons_neg p r false c cs (by simpa using hc), ihcs]

theorem getLast?_cons_ne_nil (a : Char) (w : List Char) (hw : w ≠ []) :
    (a :: w).getLast? = w.getLast? := by
  cases w with
  | nil => exact absurd rfl hw
  | cons b bs => exact List.getLast?_cons_cons

theorem collapseAux_false_ne_nil (p : Char → Bool) (r : Char) (ds : List Char)
    (h : collapseAux p r false ds = []) : ds = [] := by
  cases ds with
  | nil => rfl
  | cons x xs =>
    by_cases hx : p x
    · rw [show collapseAux p r false (x :: xs) = r :: collapseAux p r true xs from by
        simp [collapseAux, hx]] at h
      cases h
    · rw [collapseAux_cons_neg p r false x xs (by simpa using hx)] at h
      cases h

theorem collapseAux_getLast_keep (p : Char → Bool) (r : Char) (l : List Char) (c : Char)
    (hc : p c = false) :
    ∀ b, l.getLast? = some c → (collapseAux p r b l).getLast? = some c := by
  induction l with
  | nil =>
    intro b hl
    cases hl
  | cons d ds ih =>
    intro b hl
    cases ds with
    | nil =>
      have hdc : d = c := by simpa using hl
      subst hdc
      rw [collapseAux_cons_neg p r b d [] hc]
      rfl
    | cons e es =>
      have hl2 : (e :: es).getLast? = some c := by
        rw [← List.getLast?_cons_cons (a := d)]
        exact hl
      have hne : ∀ b2, collapseAux p r b2 (e :: es) ≠ [] := by
        intro b2 hn
        have := ih b2 hl2
        rw [hn] at this
        cases this
      by_cases hd : p d
      · by_cases hb : b
        · rw [show collapseAux p r b (d :: e :: es) = collapseAux p r true (e :: es) from by
            simp [collapseAux, hd, hb]]
          exact ih true hl2
        · rw [show collapseAux p r b (d :: e :: es) =
              r :: collapseAux p r true (e :: es) from by
            simp [collapseAux, hd, hb]]
          rw [getLast?_cons_ne_nil _ _ (hne true)]
          exact ih true hl2
      · rw [collapseAux_cons_neg p r b d (e :: es) (by simpa using hd)]
        rw [getLast?_cons_ne_nil _ _ (hne false)]
        exact ih false hl2

theorem collapseAux_getLast_cases (p : Char → Bool) (r : Char) (l : List Char) (c : Char) :
    ∀ b, (collapseAux p r b l).getLast? = some c → c = r ∨ l.getLast? = some c := by
  induction l with
  | nil =>
    intro b h
    cases h
  | cons d ds ih =>
    intro b h
    have hlift : ds.getLast? = some c → (d :: ds).getLast? = some c := by
      intro h1
      have hne : ds ≠ [] := by
        intro hn
        rw [hn] at h1
        cases h1
      rw [getLast?_cons_ne_nil d ds hne]
      exact h1
    by_cases hd : p d
    · by_cases hb : b
      · rw [show collapseAux p r b (d :: ds) = collapseAux p r true ds from by
          simp [collapseAux, hd, hb]] at h
        rcases ih true h with h1 | h1
        · exact Or.inl h1
        · exact Or.inr (hlift h1)
      · rw [show collapseAux p r b (d :: ds) = r :: collapseAux p r true ds from by
          simp [collapseAux, hd, hb]] at h
        cases hw : collapseAux p r true ds with
        | nil =>
          rw [hw] at h
          have : r = c := by simpa using h
          exact Or.inl this.symm
        | cons w ws =>
          rw [hw, getLast?_cons_ne_nil r (w :: ws) (by simp), ← hw] at h
          rcases ih true h with h1 | h1
          · exact Or.inl h1
          · exact Or.inr (hlift h1)
    · rw [collapseAux_cons_neg p r b d ds (by simpa using hd)] at h
      cases hw : collapseAux p r false ds with
      | nil =>
        rw [hw] at h
        have hds : ds = [] := collapseAux_false_ne_nil p r ds hw
        have : d = c := by simpa using h
        subst hds
        exact Or.inr (by rw [← this]; rfl)
      | cons w ws =>
        rw [hw, getLast?_cons_ne_nil d (w :: ws) (by simp), ← hw] at h
        rcases ih false h with h1 | h1
        · exact Or.inl h1
        · exact Or.inr (hlift h1)

theorem collapseAux_chain_other (p p2 : Char → Bool) (r : Char) (hr : p2 r = false)
    (l : List Char) :
    ∀ b, List.Chain' (fun a c => ¬(p2 a = true ∧ p2 c = true)) l →
      List.Chain' (fun a c => ¬(p2 a = true ∧ p2 c = true)) (collapseAux p r b l) := by
  induction l with
  | nil =>
    intro b _
    simp [collapseAux]
  | cons c cs ih =>
    intro b h
    rw [List.chain'_cons'] at h
    obtain ⟨hhead, htail⟩ := h
    by_cases hc : p c
    · by_cases hb : b
      · rw [show collapseAux p r b (c :: cs) = collapseAux p r true cs from by
          simp [collapseAux, hc, hb]]
        exact ih true htail
      · rw [show collapseAux p r b (c :: cs) = r :: collapseAux p r true cs from by
          simp [collapseAux, hc, hb]]
        rw [List.chain'_cons']
        refine ⟨?_, ih true htail⟩
        intro y hy hcontra
        rw [hr] at hcontra
        exact Bool.false_ne_true hcontra.1
    · rw [collapseAux_cons_neg p r b c cs (by simpa using hc)]
      rw [List.chain'_cons']
      refine ⟨?_, ih false htail⟩
      intro y hy
      rcases collapseAux_false_head p r cs y hy with h1 | h1
      · intro hcontra
        rw [h1, hr] at hcontra
        exact Bool.false_ne_true hcontra.2
      · exact hhead y h1

/-- The character-level body of sanitize_filename with the default
replacement underscore. -/
def sanitizeChars (l : List Char) : List Char :=
  collapseRuns (fun c => c == '_') '_'
    (collapseRuns isPySpace ' ' (stripSpaceDot (subInvalid ['_'] l)))

theorem sanitizeChars_clean (l : List Char)
    (hws : ∀ c ∈ l, isPySpace c = true → c.toNat < 128) :
    (∀ c ∈ sanitizeChars l, invalidChar c = false) ∧
    (∀ c ∈ sanitizeChars l, isPySpace c = true → c = ' ') ∧
    (∀ c, (sanitizeChars l).head? = some c → isSpaceDot c = false) ∧
    (∀ c, (sanitizeChars l).getLast? = some c → isSpaceDot c = false) ∧
    List.Chain' (fun a c => ¬(isPySpace a = true ∧ isPySpace c = true)) (sanitizeChars l) ∧
    List.Chain' (fun a c => ¬((a == '_') = true ∧ (c == '_') = true)) (sanitizeChars l) := by
  have f1a : ∀ c ∈ subInvalid ['_'] l, invalidChar c = false := by
    intro c hc
    rcases mem_subInvalid _ _ _ hc with h | ⟨-, h⟩
    · rw [List.mem_singleton.mp h]
      decide
    · exact h
  have f2a : ∀ c ∈ subInvalid ['_'] l, isPySpace c = true → c = ' ' := by
    intro c hc hp
    rcases mem_subInvalid _ _ _ hc with h | ⟨hmem, h⟩
    · rw [List.mem_singleton.mp h] at hp
      exact absurd hp (by decide)
    · exact ascii_pyspace_eq_space c hp (hws c hmem hp) h
  have f1b : ∀ c ∈ stripSpaceDot (subInvalid ['_'] l), invalidChar c = false :=
    fun c hc => f1a c (mem_stripSpaceDot _ c hc)
  have f2b : ∀ c ∈ stripSpaceDot (subInvalid ['_'] l), isPySpace c = true → c = ' ' :=
    fun c hc => f2a c (mem_stripSpaceDot _ c hc)
  have hWhead : ∀ c, (stripSpaceDot (subInvalid ['_'] l)).head? = some c →
      isPySpace c = false := by
    intro c hc
    by_cases hp : isPySpace c
    · have := f2b c (List.mem_of_mem_head? hc) hp
      have := stripSpaceDot_head _ c hc
      rw [‹c = ' '›] at this
      exact absurd this (by decide)
    · simpa using hp
  have hWlast : ∀ c, (stripSpaceDot (subInvalid ['_'] l)).getLast? = some c →
      isPySpace c = false := by
    intro c hc
    by_cases hp : isPySpace c
    · have hmem : c ∈ stripSpaceDot (subInvalid ['_'] l) := by
        have hne : stripSpaceDot (subInvalid ['_'] l) ≠ [] := by
          intro hn
          rw [hn] at hc
          cases hc
        rw [List.getLast?_eq_getLast _ hne] at hc
        have : c = (stripSpaceDot (subInvalid ['_'] l)).getLast hne := by
          simpa using hc.symm
        rw [this]
        exact List.getLast_mem hne
      have := f2b c hmem hp
      have h2 := stripSpaceDot_getLast _ c hc
      rw [‹c = ' '›] at h2
      exact absurd h2 (by decide)
    · simpa using hp
  have f1c : ∀ c ∈ collapseRuns isPySpace ' ' (stripSpaceDot (subInvalid ['_'] l)),
      invalidChar c = false := by
    intro c hc
    rcases mem_collapseAux _ _ _ _ _ hc with h | h
    · rw [h]
      decide
    · exact f1b c h
  have f2c : ∀ c ∈ collapseRuns isPySpace ' ' (stripSpaceDot (subInvalid ['_'] l)),
      isPySpace c = true → c = ' ' := by
    intro c hc hp
    rcases mem_collapseAux _ _ _ _ _ hc with h | h
    · exact h
    · exact f2b c h hp
  have hheadc : ∀ c, (collapseRuns isPySpace ' '
      (stripSpaceDot (subInvalid ['_'] l))).head? = some c → isSpaceDot c = false := by
    intro c hc
    cases hl2 : stripSpaceDot (subInvalid ['_'] l) with
    | nil =>
      rw [hl2] at hc
      cases hc
    | cons c0 cs0 =>
      have hc0 : isPySpace c0 = false := hWhead c0 (by rw [hl2]; rfl)
      rw [hl2] at hc
      rw [show collapseRuns isPySpace ' ' (c0 :: cs0) =
          c0 :: collapseAux isPySpace ' ' false cs0 from
        collapseAux_cons_neg _ _ _ _ _ hc0] at hc
      have : c0 = c := by simpa using hc
      rw [← this]
      exact stripSpaceDot_head _ c0 (by rw [hl2]; rfl)
  have hlastc : ∀ c, (collapseRuns isPySpace ' '
      (stripSpaceDot (subInvalid ['_'] l))).getLast? = some c → isSpaceDot c = false := by
    intro c hc
    cases hgl : (stripSpaceDot (subInvalid ['_'] l)).getLast? with
    | none =>
      have : stripSpaceDot (subInvalid ['_'] l) = [] := by
        cases hl2 : stripSpaceDot (subInvalid ['_'] l) with
        | nil => rfl
        | cons c0 cs0 =>
          rw [hl2, List.getLast?_cons] at hgl
          cases hgl
      rw [this] at hc
      cases hc
    | some c0 =>
      have hc0w : isPySpace c0 = false := hWlast c0 hgl
      have hkeep := collapseAux_getLast_keep isPySpace ' '
        (stripSpaceDot (subInvalid ['_'] l)) c0 hc0w false hgl
      rw [show collapseRuns isPySpace ' ' (stripSpaceDot (subInvalid ['_'] l)) =
          collapseAux isPySpace ' ' false (stripSpaceDot (subInvalid ['_'] l)) from rfl,
        hkeep] at hc
      have : c0 = c := by simpa using hc
      rw [← this]
      exact stripSpaceDot_getLast _ c0 hgl
  have cw3 : List.Chain' (fun a c => ¬(isPySpace a = true ∧ isPySpace c = true))
      (collapseRuns isPySpace ' ' (stripSpaceDot (subInvalid ['_'] l))) :=
    collapseAux_chain isPySpace ' ' _ false
  refine ⟨?_, ?_, ?_, ?_, ?_, ?_⟩
  · intro c hc
    rcases mem_collapseAux _ _ _ _ _ hc with h | h
    · rw [h]
      decide
    · exact f1c c h
  · intro c hc hp
    rcases mem_collapseAux _ _ _ _ _ hc with h | h
    · rw [h] at hp
      exact absurd hp (by decide)
    · exact f2c c h hp
  · intro c hc
    rcases collapseAux_false_head _ _ _ _ hc with h | h
    · rw [h]
      decide
    · exact hheadc c h
  · intro c hc
    rcases collapseAux_getLast_cases _ _ _ _ false hc with h | h
    · rw [h]
      decide
    · exact hlastc c h
  · exact collapseAux_chain_other _ isPySpace '_' (by decide) _ false cw3
  · exact collapseAux_chain (fun c => c == '_') '_' _ false

theorem sanitizeChars_idem (l : List Char)
    (hws : ∀ c ∈ l, isPySpace c = true → c.toNat < 128) :
    sanitizeChars (sanitizeChars l) = sanitizeChars l := by
  obtain ⟨f1, f2, fh, fl, cw, cu⟩ := sanitizeChars_clean l hws
  show collapseRuns (fun c => c == '_') '_' (collapseRuns isPySpace ' '
    (stripSpaceDot (subInvalid ['_'] (sanitizeChars l)))) = sanitizeChars l
  rw [subInvalid_id _ _ f1, stripSpaceDot_id _ fh fl]
  rw [show collapseRuns isPySpace ' ' (sanitizeChars l) = sanitizeChars l from
    collapseAux_id isPySpace ' ' _ f2 cw]
  exact collapseAux_id (fun c => c == '_') '_' _
    (fun c _ hp => beq_iff_eq.mp hp) cu

/-- C6 counterexample: sanitize_filename is not idempotent.  A leading
no-break space (U+00A0) survives the strip step, is then collapsed into a
leading ASCII space, and a second pass strips that space. -/
theorem sanitize_filename_not_idempotent :
    sanitize_filename (sanitize_filename "\xa0a") ≠ sanitize_filename "\xa0a" ∧
    sanitize_filename "\xa0a" = " a" ∧
    sanitize_filename (sanitize_filename "\xa0a") = "a" :=
  ⟨by decide, by decide, by decide⟩

/-- C6 amended: sanitize_filename with the default replacement is
idempotent on every string whose whitespace characters are all ASCII; only
non-ASCII whitespace (such as U+00A0), which the first pass rewrites into
an ASCII space at a position the strip step has already passed, can break
idempotence. -/
theorem sanitize_filename_idem_ascii (s : String)
    (h : ∀ c ∈ s.data, isPySpace c = true → c.toNat < 128) :
    sanitize_filename (sanitize_filename s) = sanitize_filename s := by
  have h1 : sanitize_filename s = String.mk (sanitizeChars s.data) := rfl
  have h2 : sanitize_filename (String.mk (sanitizeChars s.data)) =
      String.mk (sanitizeChars (sanitizeChars s.data)) := rfl
  rw [h1, h2, sanitizeChars_idem s.data h]

/-- Witness for C6 amended at a concrete ASCII input with an invalid
character, a double space and a trailing dot. -/
theorem sanitize_filename_idem_ascii_witness :
    sanitize_filename (sanitize_filename "a<b  c.") = sanitize_filename "a<b  c." :=
  sanitize_filename_idem_ascii "a<b  c." (by decide)

end MediaManager
